import Mathlib

/-!
Verification of the Symphony solution-reconciliation core against its
natural-language specification.

The Go sources are shallowly embedded: pure functions become Lean functions,
Go maps become association lists over `String` keys (lookup of a missing key
yields the zero value, as in Go), JSON values become the inductive `JVal`,
stateful provider calls become explicit environment parameters, and failure
becomes `Except` / explicit outcome types.  Machine integers that matter
(`strconv.ParseInt` with bit size 64) are modelled as `Int` with explicit
range checks.
-/

namespace Symphony

/-! ## Association lists modelling Go maps

A Go `map[string]T` is modelled as `List (String × T)` with `alookup`;
`aupsert` models `m[k] = v`.  Go map iteration order is unspecified; every
observation made by the claims below is order-insensitive (lookups and sums).
-/

def alookup {β : Type} : List (String × β) → String → Option β
  | [], _ => none
  | (k', v) :: rest, k => if k' = k then some v else alookup rest k

def aupsert {β : Type} : List (String × β) → String → β → List (String × β)
  | [], k, v => [(k, v)]
  | (k', v') :: rest, k, v =>
    if k' = k then (k, v) :: rest else (k', v') :: aupsert rest k v

/-! ## `strconv.ParseInt(s, 10, 64)`

Model of the Go parser used by the memory state provider and the instance
reconciler: an optional sign followed by at least one decimal digit, with the
result required to fit in a signed 64-bit integer; anything else is an error
(`none`).
-/

def parseInt64Core (sign : Int) (ds : List Char) : Option Int :=
  if ds.isEmpty then none
  else if ds.all Char.isDigit then
    let v : Int := sign * (ds.foldl (fun acc c => acc * 10 + (c.toNat - 48)) 0 : Nat)
    if -(2 ^ 63) ≤ v ∧ v ≤ 2 ^ 63 - 1 then some v else none
  else none

def parseInt64 (s : String) : Option Int :=
  match s.toList with
  | [] => none
  | '+' :: rest => parseInt64Core 1 rest
  | '-' :: rest => parseInt64Core (-1) rest
  | l => parseInt64Core 1 l

/-! ## JSON values

Bodies of state entries pass through `json.Marshal` / `json.Unmarshal` in the
Go code; the embedding works directly with the resulting JSON view.  A Go
`map[string]interface{}` obtained from unmarshalling is an `obj`; a JSON
`null` (and hence a nil `interface{}`) is `null`.
-/

inductive JVal where
  | null
  | str (s : String)
  | num (n : Int)
  | boolean (b : Bool)
  | obj (fields : List (String × JVal))
  | arr (elems : List JVal)

/-! ## Memory state provider (`memorystate.go`)

`MemoryStateProvider.Data` is `map[string]interface{}` whose values are
`states.StateEntry`; a value of any other dynamic type is modelled by
`MemVal.other` (it makes `Get`/`Upsert` fail with `InternalError`).
A failed unguarded Go type assertion is modelled by the outcome `panics`.
-/

structure StateEntry where
  id : String
  body : JVal
  etag : String

inductive MemVal where
  | entry (e : StateEntry)
  | other

structure UpsertOptions where
  updateStateOnly : Bool

structure UpsertRequest where
  value : StateEntry
  options : UpsertOptions

inductive ErrKind where
  | notFound
  | badRequest
  | badConfig
  | internalError
deriving DecidableEq

abbrev MemStore := List (String × MemVal)

inductive UpsertOutcome where
  | ok (store : MemStore) (ret : String)
  | coaError (kind : ErrKind) (store : MemStore)
  | panics

/-- Reduction of an integer into the signed 64-bit range by two's-complement
wrap-around, as Go arithmetic on `int64` behaves. -/
def int64Wrap (v : Int) : Int := (v + 2 ^ 63) % 2 ^ 64 - 2 ^ 63

/--
ETag computation at the top of `Upsert`:
`tag := "1"; if entry.Value.ETag != "" { if v, err := strconv.ParseInt(...); err == nil { tag = FormatInt(v+1) } }`.
An empty or unparsable request ETag leaves the default `"1"`; the increment
`v+1` is Go `int64` addition, which wraps at the maximum int64.
-/
def upsertETag (reqETag : String) : String :=
  if reqETag = "" then "1"
  else
    match parseInt64 reqETag with
    | some v => toString (int64Wrap (v + 1))
    | none => "1"

/-- `mapRef["status"] == nil` in Go: the key is missing from the map or holds a
nil `interface{}` (a JSON null). -/
def goIsNil : Option JVal → Bool
  | none => true
  | some .null => true
  | some _ => false

/--
The merge loop `for k, v := range mapType["status"].(map[string]interface{})
{ mapRef["status"].(map[string]interface{})[k] = v }`: each iteration asserts
that the current value under `"status"` in `mapRef` is an object (panicking
otherwise) and inserts one key.  With no iterations no assertion on
`mapRef["status"]` is evaluated.
-/
def mergeStatusInto : List (String × JVal) → List (String × JVal) → Option (List (String × JVal))
  | mapRef, [] => some mapRef
  | mapRef, (k, v) :: rest =>
    match alookup mapRef "status" with
    | some (.obj os) => mergeStatusInto (aupsert mapRef "status" (.obj (aupsert os k v))) rest
    | _ => none

/--
`MemoryStateProvider.Upsert`.  Observability spans, logging and the provider
lock are elided.  Note the Go function returns `entry.Value.ID` (not the new
ETag).  In the Go code the replacement of a nil `mapRef["status"]` by an empty
map happens before the assertion on `mapType["status"]`; the two are swapped
here, which is behaviour-preserving because that intermediate write is only
reachable for outside observers after a panic.
-/
def memUpsert (store : MemStore) (req : UpsertRequest) : UpsertOutcome :=
  let tag := upsertETag req.value.etag
  let v : StateEntry := { req.value with etag := tag }
  if req.options.updateStateOnly then
    match alookup store req.value.id with
    | none => .coaError .notFound store
    | some .other => .coaError .internalError store
    | some (.entry existingEntry) =>
      match existingEntry.body with
      | .obj mapRef =>
        -- jBody, _ := json.Marshal(entry.Value.Body); json.Unmarshal(jBody, &mapType):
        -- for a non-object body the unmarshal error is discarded and mapType stays nil.
        let mapType : Option (List (String × JVal)) :=
          match req.value.body with
          | .obj fs => some fs
          | _ => none
        -- mapType["status"].(map[string]interface{}) : a missing key, a nil map,
        -- a JSON null or a non-object value makes the type assertion panic.
        match mapType.bind (fun fs => alookup fs "status") with
        | some (.obj news) =>
          let mapRef :=
            if goIsNil (alookup mapRef "status") then aupsert mapRef "status" (.obj [])
            else mapRef
          match mergeStatusInto mapRef news with
          | some merged =>
            .ok (aupsert store req.value.id (.entry { v with body := .obj merged })) req.value.id
          | none => .panics
        | _ => .panics
      | _ => .panics -- existingEntry.Body.(map[string]interface{}) panics on a non-map body
  else
    .ok (aupsert store req.value.id (.entry v)) req.value.id

/-! ## Instance reconciler update path (`instance_reconciler.go`)

`generationMatch := true; if v, err := strconv.ParseInt(summary.Generation, 10, 64); err == nil
{ generationMatch = v == instance.GetGeneration() }` followed by the branch on
`generationMatch && time.Since(summary.Time) <= 60s`: the recency comparison is
abstracted to a boolean.  The true branch applies the summary to the instance
status, the false branch queues a job.
-/

inductive ReconcileAction where
  | applyStatus
  | queueJob
deriving DecidableEq

def generationMatch (summaryGeneration : String) (instanceGeneration : Int) : Bool :=
  match parseInt64 summaryGeneration with
  | some v => v == instanceGeneration
  | none => true

def instanceUpdateAction (summaryGeneration : String) (instanceGeneration : Int)
    (summaryRecent : Bool) : ReconcileAction :=
  if generationMatch summaryGeneration instanceGeneration && summaryRecent then
    .applyStatus
  else
    .queueJob

/-! ## MQTT target provider `Apply` (part_001)

The response subscription parses each incoming message into a `ProxyResponse`
and delivers it on the per-operation channel selected by the `call-context`
metadata; `Apply` waits on its channel with an 8-second deadline.  Whether a
response is delivered before the deadline is modelled by an
`Option COAResponse`; the publish step is not modelled (a publish failure
returns the transport error before any wait, and the claim conditions on a
successful publish).
-/

def vOK : Nat := 200
def vAccepted : Nat := 202
def vInternalError : Nat := 500

structure COAResponse where
  state : Nat
  body : String

structure ProxyResponse where
  isOK : Bool
  state : Nat
  payload : Option String

structure COAError where
  message : String
  state : Nat
deriving DecidableEq

/-- The response-topic subscription callback, restricted to the fields the
`Apply` channel observes: `IsOK := State == OK || State == Accepted`; the
stringified body is kept as payload only for non-OK responses. -/
def dispatchResponse (resp : COAResponse) : ProxyResponse :=
  let ok := resp.state == vOK || resp.state == vAccepted
  { isOK := ok, state := resp.state, payload := if ok then none else some resp.body }

def mqttApplyTimeoutSeconds : Nat := 8

/-- `MQTTTargetProvider.Apply` after a successful publish: wait on `ApplyChan`
with a `time.After(8 * time.Second)` deadline. -/
def mqttApply (delivered : Option COAResponse) : Option COAError :=
  match delivered with
  | some resp =>
    let pr := dispatchResponse resp
    if pr.isOK then none
    else some { message := pr.payload.getD "", state := pr.state }
  | none =>
    some { message := "didn\x27t get response to Apply() call over MQTT", state := vInternalError }

/-- The fields under `"status"` in the existing body, before the merge; an
absent, null or non-object value contributes the empty field list. -/
def oldStatusFields (mapRef : List (String × JVal)) : List (String × JVal) :=
  match alookup mapRef "status" with
  | some (.obj os) => os
  | _ => []

def c2Req : UpsertRequest :=
  { value := { id := "a", body := .null, etag := "41" }, options := { updateStateOnly := false } }

def c7OldBody : List (String × JVal) :=
  [("spec", .str "S"), ("status", .obj [("a", .str "1"), ("b", .str "2")])]

def c7News : List (String × JVal) := [("b", .str "9"), ("c", .str "7")]

def c7Store : MemStore := [("i", MemVal.entry ⟨"i", .obj c7OldBody, "3"⟩)]

def c7Req : UpsertRequest := ⟨⟨"i", .obj [("status", .obj c7News)], "3"⟩, ⟨true⟩⟩

def c10Store : MemStore := [("i", .entry { id := "i", body := .str "not-a-map", etag := "1" })]

def c10Req : UpsertRequest :=
  { value := { id := "i", body := .null, etag := "" }, options := { updateStateOnly := true } }

/-! ## Solution manager: data model

The `model` package types, restricted to the fields the solution manager
reads.  `ComponentSpec.Properties` is `map[string]interface{}` in Go; only
equality of property maps is ever observed here, so properties are modelled
as string-valued fields.  `ctype` embeds the Go field `Type`.
-/

structure ComponentSpec where
  name : String
  ctype : String
  properties : List (String × String)
  dependencies : List String
deriving DecidableEq, Inhabited

inductive ComponentAction where
  | update
  | delete
deriving DecidableEq, Inhabited

structure ComponentStep where
  action : ComponentAction
  component : ComponentSpec
deriving DecidableEq, Inhabited

structure DeploymentStep where
  target : String
  role : String
  components : List ComponentStep
deriving DecidableEq, Inhabited

structure DeploymentState where
  components : List ComponentSpec
  targetComponent : List (String × String)
deriving DecidableEq, Inhabited

/-- Go map read `state.TargetComponent[key]`: a missing key yields `""`. -/
def tcGet (state : DeploymentState) (key : String) : String :=
  (alookup state.targetComponent key).getD ""

/-- `strings.HasPrefix(role, "-")` — the tombstone convention.  The source
only ever asks for the single-character prefix `"-"`, so the check is
modelled on the first character (`String.startsWith` itself does not reduce
inside the kernel). -/
def hasPrefixDash (s : String) : Bool :=
  match s.toList with
  | c :: _ => c == '-'
  | [] => false

/-! ## Claim C3: `canSkipStep` -/

/-- One iteration of the outer loop of `canSkipStep`
(solution-manager.go:458-482): the treatment of a single
`(component, action)` entry of the step. -/
def canSkipEntry (isComponentChanged : ComponentSpec → ComponentSpec → Bool)
    (target : String) (currentComponents : List ComponentSpec)
    (state : DeploymentState) (newCom : ComponentStep) : Bool :=
  match newCom.action with
  | .delete =>
    -- return false as soon as a current component with that name is still bound
    !(currentComponents.any fun c =>
      c.name == newCom.component.name &&
      tcGet state (newCom.component.name ++ "::" ++ target) != "")
  | .update =>
    -- the first current component with that name and a live binding decides
    match currentComponents.find? (fun c =>
        c.name == newCom.component.name &&
        tcGet state (newCom.component.name ++ "::" ++ target) != "" &&
        !hasPrefixDash (tcGet state (newCom.component.name ++ "::" ++ target))) with
    | some c => !isComponentChanged c newCom.component
    | none => false

/-- `canSkipStep` (solution-manager.go:456-485).  The provider argument is
abstracted to the only thing the function calls on it,
`GetValidationRule(ctx).IsComponentChanged`; the early `return false` exits
of the loop are the conjunction `List.all`. -/
def canSkipStep (isComponentChanged : ComponentSpec → ComponentSpec → Bool)
    (step : DeploymentStep) (target : String)
    (currentComponents : List ComponentSpec) (state : DeploymentState) : Bool :=
  step.components.all (canSkipEntry isComponentChanged target currentComponents state)

/-- The skip condition as the claim words it: for `update` entries it asks for
*some* current component with that name that the validation rule reports
unchanged (the source instead consults the *first* such component). -/
abbrev specCanSkip (isComponentChanged : ComponentSpec → ComponentSpec → Bool)
    (step : DeploymentStep) (target : String)
    (currentComponents : List ComponentSpec) (state : DeploymentState) : Prop :=
  ∀ e ∈ step.components,
    (e.action = .delete →
      ¬∃ c ∈ currentComponents, c.name = e.component.name ∧
        tcGet state (e.component.name ++ "::" ++ target) ≠ "") ∧
    (e.action = .update →
      ∃ c ∈ currentComponents, c.name = e.component.name ∧
        tcGet state (e.component.name ++ "::" ++ target) ≠ "" ∧
        ¬hasPrefixDash (tcGet state (e.component.name ++ "::" ++ target)) = true ∧
        isComponentChanged c e.component = false)

def c3Rule : ComponentSpec → ComponentSpec → Bool := fun c d => c.properties != d.properties

def c3CompA1 : ComponentSpec := ⟨"A", "", [("v", "1")], []⟩

def c3CompA2 : ComponentSpec := ⟨"A", "", [("v", "2")], []⟩

def c3Step : DeploymentStep := ⟨"T", "", [⟨.update, c3CompA2⟩]⟩

def c3State : DeploymentState := ⟨[], [("A::T", "container")]⟩

def c3WStep : DeploymentStep := ⟨"T", "", [⟨.update, ⟨"A", "", [], []⟩⟩]⟩

/-! ## Claim C5: `sortByDepedencies` (solution-manager.go:614-648)

Kahn's algorithm over component indices.  The Go `ret` accumulates the
component values `components[queue[0]]` and reads back only the last emitted
component's `Name`; the embedding accumulates the indices and maps them to
components at the end, which yields the identical list.  The loop terminates
because each index is enqueued at most once (an in-degree cell is only ever
decremented, and an index is enqueued exactly when its cell reaches 0), so
`components.length` iterations always suffice; `kahnLoop` carries that bound
as explicit fuel, and `kahnLoop_spec` below proves the queue is empty
whenever the fuel runs out.
-/

/-- The inner `for _, d := range c.Dependencies` search with the `found`
flag: does component `c` list `nm` among its dependencies? -/
def depFound (c : ComponentSpec) (nm : String) : Bool :=
  c.dependencies.any fun d => d == nm

/-- Effect on `inDegrees` of one pass of the decrement loop after emitting a
component named `nm`: iteration `i` touches only cell `i`. -/
def decrementInDegrees (cs : List ComponentSpec) (ds : List Int) (nm : String) : List Int :=
  (cs.zip ds).map fun p => if depFound p.1 nm then p.2 - 1 else p.2

/-- The indices appended to the queue during that pass, in ascending order:
those whose cell is decremented (`depFound`) and reaches exactly 0. -/
def newlyReady (cs : List ComponentSpec) (ds : List Int) (nm : String) : List Nat :=
  (List.range cs.length).filter fun i =>
    depFound (cs.getD i default) nm && ds.getD i 0 == 1

def kahnLoop (cs : List ComponentSpec) : Nat → List Int → List Nat → List Nat → List Nat
  | 0, _, _, ret => ret
  | fuel + 1, ds, queue, ret =>
    match queue with
    | [] => ret
    | q0 :: qrest =>
      kahnLoop cs fuel (decrementInDegrees cs ds (cs.getD q0 default).name)
        (qrest ++ newlyReady cs ds (cs.getD q0 default).name) (ret ++ [q0])

def sortByDepedencies (components : List ComponentSpec) : Except String (List ComponentSpec) :=
  let inDegrees := components.map fun c => (c.dependencies.length : Int)
  let queue := (List.range components.length).filter fun i =>
    (components.getD i default).dependencies.length == 0
  let ret := kahnLoop components components.length inDegrees queue []
  if ret.length ≠ components.length then
    .error "circular dependencies or unresolved dependencies detected in components"
  else
    .ok (ret.map fun i => components.getD i default)

/-- Edge of the dependency graph: component `i` depends on component `j`
(the claim's "edges from each component to the components named in its
Dependencies"). -/
abbrev dependsOn (cs : List ComponentSpec) (i j : Nat) : Prop :=
  i < cs.length ∧ j < cs.length ∧
    (cs.getD j default).name ∈ (cs.getD i default).dependencies

/-- Every dependency name resolves to a component in the list. -/
abbrev resolvesAll (cs : List ComponentSpec) : Prop :=
  ∀ i < cs.length, ∀ d ∈ (cs.getD i default).dependencies,
    ∃ j < cs.length, (cs.getD j default).name = d

/-- The dependency graph has no cycle. -/
def acyclic (cs : List ComponentSpec) : Prop :=
  ∀ i, ¬Relation.TransGen (dependsOn cs) i i

/-- Names of the components already emitted, in emission order. -/
def emittedNames (cs : List ComponentSpec) (ret : List Nat) : List String :=
  ret.map fun j => (cs.getD j default).name

/-- The value the loop keeps in `inDegrees[i]`: the declared dependency count
minus the number of listed dependencies whose name has been emitted. -/
def remainingDeg (cs : List ComponentSpec) (ret : List Nat) (i : Nat) : Int :=
  ((cs.getD i default).dependencies.length : Int) -
    ((cs.getD i default).dependencies.countP fun d => decide (d ∈ emittedNames cs ret))

/-- Loop invariant of `kahnLoop` (for duplicate-free component names and
duplicate-free dependency lists). -/
structure KahnInv (cs : List ComponentSpec) (ds : List Int) (queue ret : List Nat) : Prop where
  dslen : ds.length = cs.length
  dsval : ∀ i < cs.length, ds.getD i 0 = remainingDeg cs ret i
  nodup : (ret ++ queue).Nodup
  bounded : ∀ i ∈ ret ++ queue, i < cs.length
  queueDone : ∀ i ∈ queue, ∀ d ∈ (cs.getD i default).dependencies, d ∈ emittedNames cs ret
  unseenPos : ∀ i < cs.length, i ∉ ret → i ∉ queue → 0 < ds.getD i 0
  emNonpos : ∀ i ∈ ret, ds.getD i 0 ≤ 0
  emittedDone : ∀ k, (hk : k < ret.length) →
    ∀ d ∈ (cs.getD (ret.get ⟨k, hk⟩) default).dependencies, d ∈ emittedNames cs (ret.take k)

def c5Ex1 : List ComponentSpec := [⟨"B", "", [], []⟩, ⟨"C", "", [], ["B", "B"]⟩]

def c5Ex2 : List ComponentSpec :=
  [⟨"A", "", [], []⟩, ⟨"A", "", [("d", "1")], ["B"]⟩, ⟨"B", "", [], ["A"]⟩]

def c5W : List ComponentSpec := [⟨"A", "", [], []⟩, ⟨"B", "", [], ["A"]⟩]

/-! ## Solution manager: `Reconcile` (solution-manager.go:196-426)

Remaining data model, the operations of the `model` package that are not in
`src/` (modelled from the specification), and the reconcile pipeline.  The
manager's collaborators are abstracted into `SolutionManagerEnv`: the state
store `Get` for the instance key (together with the JSON deserialization of
its body) as `prevGetRaw`, and the target providers as the functions
`providerGet` / `providerApply` / `isComponentChanged`.  Writes to the state
store and `Apply` calls are recorded as a trace of `Effect`s.  Elided
throughout: the process-wide lock, the heartbeat goroutine, observability
spans, logging, the evaluation context (modelled for a manager whose
`VendorContext` is nil, where the evaluation step is skipped), the
`SYMPHONY_AGENT_ADDRESS` metadata injection (only mutates request metadata),
target-mode filtering (a manager with `IsTarget = false`), and provider
construction (`CreateProviderForTargetRole` is taken to succeed; its failure
path is not part of any claim). -/

structure TargetState where
  role : String
deriving DecidableEq, Inhabited

structure DeploymentSpec where
  instanceName : String
  generation : String
  solutionComponents : List ComponentSpec
  targets : List (String × TargetState)
deriving DecidableEq, Inhabited

structure ComponentResultSpec where
  status : String
  message : String
deriving DecidableEq, Inhabited

structure TargetResultSpec where
  status : String
  message : String
  componentResults : List (String × ComponentResultSpec)
deriving DecidableEq, Inhabited

structure SummarySpec where
  targetCount : Nat
  successCount : Nat
  allAssignedDeployed : Bool
  skipped : Bool
  isRemoval : Bool
  summaryMessage : String
  targetResults : List (String × TargetResultSpec)
deriving DecidableEq, Inhabited

def SummarySpec.updateTargetResult (s : SummarySpec) (target : String)
    (r : TargetResultSpec) : SummarySpec :=
  { s with targetResults := aupsert s.targetResults target r }

structure SolutionManagerDeploymentState where
  spec : DeploymentSpec
  state : DeploymentState
deriving DecidableEq, Inhabited

/-- Modelled from the spec: `NewDeploymentState(spec)` is not under `src/`.
"Seeds `TargetComponent` with an empty role for each `(component, target)`
pair declared by the spec's component-to-target bindings"; the spec does not
further constrain the component selectors, so every solution component is
taken as bound to every declared target.  `Components` carries the solution's
component list (it is what `canSkipStep` later receives as
`previousDesiredState.State.Components`). -/
def NewDeploymentState (spec : DeploymentSpec) : DeploymentState :=
  { components := spec.solutionComponents,
    targetComponent := spec.solutionComponents.bind fun c =>
      spec.targets.map fun t => (c.name ++ "::" ++ t.1, "") }

/-- Modelled from the spec: `MergeDeploymentStates(a, b)` is not under `src/`.
"Returns a new state whose `TargetComponent` is the union of both, with `b`
winning on key collision except that a tombstone in `a` is preserved when `b`
has no assignment for that key" — with "no assignment" meaning the key is
absent (§3), the exception clause coincides with the plain union.  The spec
does not fix the merged `Components`; `b`'s are kept (no modelled observer
reads them). -/
def MergeDeploymentStates (a b : DeploymentState) : DeploymentState :=
  { components := b.components,
    targetComponent :=
      (a.targetComponent.filter fun p => (alookup b.targetComponent p.1).isNone) ++
        b.targetComponent }

/-- Modelled from the spec: `MarkRemoveAll` is not under `src/`.  "Prefixes
every role with `-`, turning the whole state into a removal plan." -/
def DeploymentState.markRemoveAll (st : DeploymentState) : DeploymentState :=
  { st with targetComponent := st.targetComponent.map fun p => (p.1, "-" ++ p.2) }

/-- Modelled from the spec: `ClearAllRemoved` is not under `src/`.  "Drops
entries whose role begins with `-`." -/
def DeploymentState.clearAllRemoved (st : DeploymentState) : DeploymentState :=
  { st with targetComponent := st.targetComponent.filter fun p => !hasPrefixDash p.2 }

structure DeploymentPlan where
  steps : List DeploymentStep
deriving DecidableEq, Inhabited

/-- The component object planned for a name: the new desired spec wins, a
component known only from the state (a pending deletion) is taken from
there. -/
def candidateComponents (dep : DeploymentSpec) (st : DeploymentState) : List ComponentSpec :=
  dep.solutionComponents ++
    st.components.filter fun c => !(dep.solutionComponents.any fun c2 => c2.name == c.name)

/-- Modelled from the spec: the Planner (`PlanForDeployment`) is not under
`src/`.  §4.4: "For each target, compute the subset of components assigned to
that target, topologically sort them by dependency, and classify each as
`delete` if its `TargetComponent` entry is a tombstone (prefix `-`) or
missing from the new desired spec, else `update`."  Assignment means the key
is present in `TargetComponent` (§3: absence of a key means not assigned); a
target with no assigned component contributes no step (per-target batching,
one step per target).  The topological sort is the source function
`sortByDepedencies`; its failure fails the plan. -/
def planForTarget (dep : DeploymentSpec) (st : DeploymentState) (t : String)
    (ts : TargetState) : Except String (Option DeploymentStep) :=
  let assigned := (candidateComponents dep st).filter fun c =>
    (alookup st.targetComponent (c.name ++ "::" ++ t)).isSome
  if assigned.isEmpty then .ok none
  else
    match sortByDepedencies assigned with
    | .error e => .error e
    | .ok sorted =>
      .ok (some
        { target := t, role := ts.role,
          components := sorted.map fun c =>
            { action :=
                if hasPrefixDash (tcGet st (c.name ++ "::" ++ t)) ||
                    !(dep.solutionComponents.any fun c2 => c2.name == c.name) then
                  ComponentAction.delete
                else ComponentAction.update,
              component := c } })

def planTargets (dep : DeploymentSpec) (st : DeploymentState) :
    List (String × TargetState) → Except String (List DeploymentStep)
  | [] => .ok []
  | (t, ts) :: rest =>
    match planForTarget dep st t ts with
    | .error e => .error e
    | .ok none => planTargets dep st rest
    | .ok (some s) =>
      match planTargets dep st rest with
      | .error e => .error e
      | .ok ss => .ok (s :: ss)

/-- Modelled from the spec: see `planForTarget`.  Targets are visited in the
deployment's declaration order (§4.4 allows any order across targets). -/
def PlanForDeployment (dep : DeploymentSpec) (st : DeploymentState) :
    Except String DeploymentPlan :=
  match planTargets dep st dep.targets with
  | .error e => .error e
  | .ok ss => .ok ⟨ss⟩

/-- The manager's collaborators. `prevGetRaw` is the state store `Get` on the
instance key composed with the JSON deserialization of the stored body:
outer error = store error of any kind, inner error = deserialization
failure. -/
structure SolutionManagerEnv where
  prevGetRaw : Except ErrKind (Except Unit SolutionManagerDeploymentState)
  providerGet : DeploymentStep → Except String (List ComponentSpec)
  providerApply : DeploymentStep → Except String (List (String × ComponentResultSpec))
  isComponentChanged : ComponentSpec → ComponentSpec → Bool

/-- `getPreviousState` (solution-manager.go:119-136): any store error — not
only `NotFound` — and any deserialization failure yield nil. -/
def getPreviousState (env : SolutionManagerEnv) : Option SolutionManagerDeploymentState :=
  match env.prevGetRaw with
  | .ok (.ok st) => some st
  | .ok (.error _) => none
  | .error _ => none

/-- The loop body of `SolutionManager.Get` (solution-manager.go:510-560),
accumulating `ret.TargetComponent` and the deduplicated observed
components. -/
def managerGetLoop (env : SolutionManagerEnv) (targetName : String) :
    List DeploymentStep → List (String × String) → List ComponentSpec →
    Except String (List (String × String) × List ComponentSpec)
  | [], tc, comps => .ok (tc, comps)
  | step :: rest, tc, comps =>
    if targetName ≠ "" ∧ targetName ≠ step.target then
      managerGetLoop env targetName rest tc comps
    else
      match env.providerGet step with
      | .error e => .error e
      | .ok observed =>
        let acc := observed.foldl
          (fun acc c =>
            (aupsert acc.1 (c.name ++ "::" ++ step.target)
              (if c.ctype = "" then "container" else c.ctype),
             if acc.2.any fun rc => rc.name == c.name then acc.2 else acc.2 ++ [c]))
          (tc, comps)
        managerGetLoop env targetName rest acc.1 acc.2

/-- `SolutionManager.Get` (solution-manager.go:486-563): plan against the
fresh deployment state, observe each planned step's target via the provider,
rebuild `TargetComponent` from the observations (`c.Type`, defaulting to
`"container"`), and deduplicate observed components by name. -/
def managerGet (env : SolutionManagerEnv) (dep : DeploymentSpec) (targetName : String) :
    Except String (DeploymentState × List ComponentSpec) :=
  let state := NewDeploymentState dep
  match PlanForDeployment dep state with
  | .error e => .error e
  | .ok plan =>
    match managerGetLoop env targetName plan.steps [] [] with
    | .error e => .error e
    | .ok (tc, comps) => .ok ({ state with targetComponent := tc }, comps)

inductive Effect where
  | applyCall (step : DeploymentStep)
  | saveState (id : String) (st : SolutionManagerDeploymentState)
  | saveSummary (id : String) (summary : SummarySpec) (generation : String)
deriving DecidableEq

/-- `saveSummary` (solution-manager.go:440-455): upsert of the
`SummaryResult` under `"summary-" + instance name`; the wall-clock `Time`
field is elided. -/
def saveSummaryEffect (dep : DeploymentSpec) (s : SummarySpec) : Effect :=
  .saveSummary ("summary-" ++ dep.instanceName) s dep.generation

structure StepLoopState where
  summary : SummarySpec
  targetResult : List (String × Nat)
  plannedCount : Nat
  planSuccessCount : Nat
  someStepsRan : Bool
  effects : List Effect
deriving DecidableEq, Inhabited

inductive StepLoopOut where
  | done (st : StepLoopState)
  | failed (summary : SummarySpec) (err : String) (effects : List Effect)
deriving DecidableEq

def sumTargetResult (tr : List (String × Nat)) : Nat := (tr.map Prod.snd).sum

/-- The skip decision of lines 319-326: with a previous state present it is
`canSkipStep` against `testState = merge(previousDesiredState.State,
currentState)`; with no previous state skip detection is bypassed. -/
def skipOf (env : SolutionManagerEnv) (prev : Option SolutionManagerDeploymentState)
    (currentState : DeploymentState) (step : DeploymentStep) : Bool :=
  match prev with
  | some p =>
    canSkipStep env.isComponentChanged step step.target p.state.components
      (MergeDeploymentStates p.state currentState)
  | none => false

/-- The step loop of `Reconcile` (solution-manager.go:283-383).  The retry
loop has `retryCount = 1` in the source, so exactly one `Apply` attempt is
made per non-skipped step (the 5-second sleep between attempts is elided);
a step failure recomputes `SuccessCount` from `targetResult`, persists the
summary and returns the step's error. -/
def stepLoop (env : SolutionManagerEnv) (dep : DeploymentSpec) (targetName : String)
    (prev : Option SolutionManagerDeploymentState) (currentState : DeploymentState) :
    List DeploymentStep → StepLoopState → StepLoopOut
  | [], st => .done st
  | step :: rest, st =>
    if targetName ≠ "" ∧ targetName ≠ step.target then
      stepLoop env dep targetName prev currentState rest st
    else
      let st := { st with plannedCount := st.plannedCount + 1 }
      if skipOf env prev currentState step then
        stepLoop env dep targetName prev currentState rest
          { st with targetResult := aupsert st.targetResult step.target 1,
                    planSuccessCount := st.planSuccessCount + 1 }
      else
        let effects := st.effects ++ [Effect.applyCall step]
        match env.providerApply step with
        | .ok componentResults =>
          let summary :=
            { st.summary with allAssignedDeployed := st.plannedCount == st.planSuccessCount }
          let summary := summary.updateTargetResult step.target
            ⟨"OK", "", componentResults⟩
          stepLoop env dep targetName prev currentState rest
            { st with summary := summary,
                      targetResult := aupsert st.targetResult step.target 1,
                      planSuccessCount := st.planSuccessCount + 1,
                      someStepsRan := true, effects := effects }
        | .error e =>
          let summary := { st.summary with allAssignedDeployed := false }
          let summary := summary.updateTargetResult step.target ⟨"Error", e, []⟩
          let targetResult := aupsert st.targetResult step.target 0
          let summary :=
            { summary with successCount := sumTargetResult targetResult,
                           allAssignedDeployed := st.plannedCount == st.planSuccessCount }
          .failed summary e (effects ++ [saveSummaryEffect dep summary])

structure ReconcileResult where
  summary : SummarySpec
  error : Option String
  effects : List Effect
deriving DecidableEq

/-- Line 255-258: the previous desired state is merged into the desired
state only when a previous state exists. -/
def reconcileDesiredState (prev : Option SolutionManagerDeploymentState)
    (currentDesiredState : DeploymentState) : DeploymentState :=
  match prev with
  | some p => MergeDeploymentStates p.state currentDesiredState
  | none => currentDesiredState

/-- `Reconcile` (solution-manager.go:196-426) for a manager with no
evaluation context, with the previous state already fetched.  The
`NewDeploymentState` error branch (line 242-247) is not modelled: the
spec-modelled constructor is total.  Note lines 411-414/417-421: the
`Skipped → SuccessCount = TargetCount` assignment is overwritten by the
recomputation from `targetResult` before the summary is persisted. -/
def reconcileCore (env : SolutionManagerEnv) (prev : Option SolutionManagerDeploymentState)
    (dep : DeploymentSpec) (remove : Bool) (targetName : String) : ReconcileResult :=
  let summary0 : SummarySpec :=
    { targetCount := dep.targets.length, successCount := 0, allAssignedDeployed := false,
      skipped := false, isRemoval := false, summaryMessage := "", targetResults := [] }
  let currentDesiredState := NewDeploymentState dep
  match managerGet env dep targetName with
  | .error e =>
    let summary := { summary0 with summaryMessage := "failed to get current state: " ++ e }
    { summary := summary, error := some e, effects := [saveSummaryEffect dep summary] }
  | .ok (currentState, _) =>
    let desiredState := reconcileDesiredState prev currentDesiredState
    let desiredState := if remove then desiredState.markRemoveAll else desiredState
    let mergedState := MergeDeploymentStates currentState desiredState
    match PlanForDeployment dep mergedState with
    | .error e =>
      let summary := { summary0 with summaryMessage := "failed to plan for deployment: " ++ e }
      { summary := summary, error := some e, effects := [saveSummaryEffect dep summary] }
    | .ok plan =>
      match stepLoop env dep targetName prev currentState plan.steps
          ⟨summary0, [], 0, 0, false, []⟩ with
      | .failed summary e effects =>
        { summary := summary, error := some e, effects := effects }
      | .done st =>
        let effects := st.effects ++
          [Effect.saveState dep.instanceName ⟨dep, mergedState.clearAllRemoved⟩]
        let summary := { st.summary with skipped := !st.someStepsRan }
        let summary :=
          if summary.skipped then { summary with successCount := summary.targetCount }
          else summary
        let summary := { summary with isRemoval := remove }
        let summary := { summary with successCount := sumTargetResult st.targetResult }
        let summary :=
          { summary with allAssignedDeployed := st.plannedCount == st.planSuccessCount }
        { summary := summary, error := none,
          effects := effects ++ [saveSummaryEffect dep summary] }

def Reconcile (env : SolutionManagerEnv) (dep : DeploymentSpec) (remove : Bool)
    (targetName : String) : ReconcileResult :=
  reconcileCore env (getPreviousState env) dep remove targetName

/-! ## Claim C1 -/

def c1Dep : DeploymentSpec :=
  { instanceName := "i", generation := "1", solutionComponents := [],
    targets := [("T", ⟨""⟩)] }

def c1Env : SolutionManagerEnv :=
  { prevGetRaw := .error .notFound, providerGet := fun _ => .ok [],
    providerApply := fun _ => .ok [], isComponentChanged := fun _ _ => false }

def c4Dep : DeploymentSpec :=
  { instanceName := "i", generation := "1", solutionComponents := [⟨"A", "", [], []⟩],
    targets := [("T", ⟨""⟩)] }

def c4Env : SolutionManagerEnv :=
  { prevGetRaw := .error .notFound, providerGet := fun _ => .ok [],
    providerApply := fun _ => .error "boom", isComponentChanged := fun _ _ => false }

def c4Step : DeploymentStep := ⟨"T", "", [⟨.update, ⟨"A", "", [], []⟩⟩]⟩

def c9Env : SolutionManagerEnv :=
  { prevGetRaw := .ok (.error ()), providerGet := fun _ => .ok [],
    providerApply := fun _ => .ok [], isComponentChanged := fun _ _ => false }

def c9Dep : DeploymentSpec :=
  { instanceName := "j", generation := "1", solutionComponents := [⟨"A", "", [], []⟩],
    targets := [("T", ⟨""⟩)] }

/-! ## Theorems -/

@[simp]
theorem alookup_nil {β : Type} (k : String) : alookup ([] : List (String × β)) k = none := rfl

@[simp]
theorem alookup_cons {β : Type} (k' k : String) (v : β) (rest : List (String × β)) :
    alookup ((k', v) :: rest) k = if k' = k then some v else alookup rest k := rfl

theorem alookup_aupsert_self {β : Type} (l : List (String × β)) (k : String) (v : β) :
    alookup (aupsert l k v) k = some v := by
  induction l with
  | nil => simp [aupsert]
  | cons p rest ih =>
    obtain ⟨k', v'⟩ := p
    by_cases h : k' = k
    · simp [aupsert, h]
    · simp [aupsert, h, ih]

theorem alookup_aupsert_other {β : Type} (l : List (String × β)) (k k' : String) (v : β)
    (h : k ≠ k') : alookup (aupsert l k v) k' = alookup l k' := by
  induction l with
  | nil => simp [aupsert, h]
  | cons p rest ih =>
    obtain ⟨k₀, v₀⟩ := p
    by_cases h₀ : k₀ = k
    · subst h₀
      simp [aupsert, h]
    · simp only [aupsert, if_neg h₀, alookup_cons]
      by_cases h₁ : k₀ = k'
      · simp [h₁]
      · simp [h₁, ih]

/-! ## Supporting lemmas about association lists -/

theorem alookup_eq_none_of_not_mem {β : Type} (l : List (String × β)) (k : String)
    (h : k ∉ l.map Prod.fst) : alookup l k = none := by
  induction l with
  | nil => rfl
  | cons p rest ih =>
    obtain ⟨k', v'⟩ := p
    simp only [List.map_cons, List.mem_cons] at h
    push_neg at h
    have hne : ¬k' = k := fun hh => h.1 hh.symm
    simp [alookup, hne, ih h.2]

theorem alookup_foldl_aupsert (news : List (String × JVal)) :
    ∀ (os : List (String × JVal)), (news.map Prod.fst).Nodup →
    ∀ k, alookup (news.foldl (fun acc p => aupsert acc p.1 p.2) os) k =
      (alookup news k).or (alookup os k) := by
  induction news with
  | nil => intro os _ k; rfl
  | cons p rest ih =>
    intro os hnodup k
    obtain ⟨k₁, v₁⟩ := p
    simp only [List.map_cons, List.nodup_cons] at hnodup
    simp only [List.foldl_cons]
    rw [ih (aupsert os k₁ v₁) hnodup.2 k]
    by_cases hk : k₁ = k
    · subst hk
      rw [alookup_eq_none_of_not_mem rest k₁ hnodup.1, alookup_aupsert_self]
      simp [alookup]
    · rw [alookup_aupsert_other os k₁ k v₁ hk]
      simp [alookup, hk]

theorem mergeStatusInto_spec (news : List (String × JVal)) :
    ∀ (mapRef os : List (String × JVal)), alookup mapRef "status" = some (.obj os) →
    ∃ merged, mergeStatusInto mapRef news = some merged ∧
      alookup merged "status" =
        some (.obj (news.foldl (fun acc p => aupsert acc p.1 p.2) os)) ∧
      ∀ k, k ≠ "status" → alookup merged k = alookup mapRef k := by
  induction news with
  | nil =>
    intro mapRef os h
    exact ⟨mapRef, rfl, by simpa using h, fun k _ => rfl⟩
  | cons p rest ih =>
    intro mapRef os h
    obtain ⟨k₁, v₁⟩ := p
    have hstep : alookup (aupsert mapRef "status" (.obj (aupsert os k₁ v₁))) "status" =
        some (.obj (aupsert os k₁ v₁)) := alookup_aupsert_self _ _ _
    obtain ⟨merged, hmerge, hstatus, hother⟩ :=
      ih (aupsert mapRef "status" (.obj (aupsert os k₁ v₁))) (aupsert os k₁ v₁) hstep
    refine ⟨merged, ?_, ?_, ?_⟩
    · simpa [mergeStatusInto, h] using hmerge
    · simpa using hstatus
    · intro k hk
      rw [hother k hk, alookup_aupsert_other _ _ _ _ (fun hh => hk hh.symm)]

/-! ## Claim C2 -/

/-- C2 counterexample: `Upsert` returns `entry.Value.ID`, not the new ETag.
Two successive successful `Upsert` calls on id `"2"` both return `"2"`: the
returned string differs from the entry's new ETag `"1"`, and the value
returned by the second call is not strictly greater than the one returned by
the first (`2 < 2` is false). -/
theorem memUpsert_returns_id_cex :
    memUpsert [] { value := { id := "2", body := .null, etag := "" },
                   options := { updateStateOnly := false } } =
      .ok [("2", .entry { id := "2", body := .null, etag := "1" })] "2" ∧
    memUpsert [("2", .entry { id := "2", body := .null, etag := "1" })]
        { value := { id := "2", body := .null, etag := "" },
          options := { updateStateOnly := false } } =
      .ok [("2", .entry { id := "2", body := .null, etag := "1" })] "2" ∧
    ("2" : String) ≠ "1" ∧ ¬((2 : Int) < 2) :=
  ⟨rfl, rfl, by decide, by decide⟩

/-- C2 (amended): every successful plain `Upsert` returns the entry's ID and
stores the entry under that ID with ETag `FormatInt(v+1)` — the increment
taken in wrapping int64 arithmetic — when the request ETag parses as the
int64 `v`, and `"1"` otherwise (in particular when the request carries no
ETag).  The wrap is the identity whenever `v+1` is still in int64 range; at
the maximum int64 the stored ETag wraps to the minimum. -/
theorem memUpsert_plain_spec (store : MemStore) (req : UpsertRequest)
    (h : req.options.updateStateOnly = false) :
    memUpsert store req =
      .ok (aupsert store req.value.id
            (.entry { req.value with etag := upsertETag req.value.etag }))
        req.value.id ∧
    (∀ v, parseInt64 req.value.etag = some v →
      upsertETag req.value.etag = toString (int64Wrap (v + 1))) ∧
    (parseInt64 req.value.etag = none → upsertETag req.value.etag = "1") ∧
    (∀ w : Int, -(2 ^ 63) ≤ w → w ≤ 2 ^ 63 - 1 → int64Wrap w = w) ∧
    upsertETag "9223372036854775807" = "-9223372036854775808" := by
  refine ⟨by simp [memUpsert, h], ?_, ?_, ?_, ?_⟩
  · intro v hv
    have hne : ¬req.value.etag = "" := by
      intro hh
      rw [hh] at hv
      exact Option.noConfusion ((rfl : parseInt64 "" = none) ▸ hv)
    simp [upsertETag, hne, hv]
  · intro hv
    by_cases hne : req.value.etag = ""
    · simp [upsertETag, hne]
    · simp [upsertETag, hne, hv]
  · intro w h1 h2
    unfold int64Wrap
    omega
  · rfl

theorem memUpsert_plain_spec_witness :
    c2Req.options.updateStateOnly = false ∧
    memUpsert [] c2Req =
      .ok (aupsert [] c2Req.value.id
            (.entry { c2Req.value with etag := upsertETag c2Req.value.etag }))
        c2Req.value.id :=
  ⟨rfl, (memUpsert_plain_spec [] c2Req rfl).1⟩

/-! ## Claim C7 -/

/-- C7 (confirmed): with the `UpdateStateOnly` option, when no entry exists
under the id `Upsert` fails with `NotFound` and leaves the store unchanged;
when an entry exists whose body is a map (and the new body carries a
`status` object, as the claim presupposes), the stored body keeps every
field other than `status` unchanged and its `status` map becomes the shallow
merge of the old status map with the new one, new keys winning. -/
theorem memUpsert_updateStateOnly_spec (store : MemStore) (req : UpsertRequest)
    (hopt : req.options.updateStateOnly = true) :
    (alookup store req.value.id = none → memUpsert store req = .coaError .notFound store) ∧
    (∀ e mapRef bs news,
      alookup store req.value.id = some (.entry e) →
      e.body = .obj mapRef →
      req.value.body = .obj bs →
      alookup bs "status" = some (.obj news) →
      (news.map Prod.fst).Nodup →
      (goIsNil (alookup mapRef "status") = true ∨
        ∃ os, alookup mapRef "status" = some (.obj os)) →
      ∃ merged,
        memUpsert store req =
          .ok (aupsert store req.value.id
                (.entry { id := req.value.id, body := .obj merged,
                          etag := upsertETag req.value.etag }))
            req.value.id ∧
        (∀ k, k ≠ "status" → alookup merged k = alookup mapRef k) ∧
        ∃ ms, alookup merged "status" = some (.obj ms) ∧
          ∀ k, alookup ms k =
            (alookup news k).or (alookup (oldStatusFields mapRef) k)) := by
  constructor
  · intro hnone
    simp [memUpsert, hopt, hnone]
  · intro e mapRef bs news hfound hbody hreq hstatus hnodup hold
    -- the base map the Go code merges into: mapRef after the nil-replacement
    have hbase : ∃ base,
        (if goIsNil (alookup mapRef "status") then aupsert mapRef "status" (.obj [])
         else mapRef) = base ∧
        alookup base "status" = some (.obj (oldStatusFields mapRef)) ∧
        ∀ k, k ≠ "status" → alookup base k = alookup mapRef k := by
      rcases hold with hnil | ⟨os, hos⟩
      · refine ⟨aupsert mapRef "status" (.obj []), by simp [hnil], ?_, ?_⟩
        · rw [alookup_aupsert_self]
          unfold oldStatusFields
          cases hv : alookup mapRef "status" with
          | none => rfl
          | some v => cases v <;> simp_all [goIsNil]
        · intro k hk
          exact alookup_aupsert_other _ _ _ _ fun hh => hk hh.symm
      · have : goIsNil (alookup mapRef "status") = false := by rw [hos]; rfl
        exact ⟨mapRef, by simp [this], by simp [oldStatusFields, hos], fun _ _ => rfl⟩
    obtain ⟨base, hbeq, hblook, hbother⟩ := hbase
    obtain ⟨merged, hmerge, hmstatus, hmother⟩ :=
      mergeStatusInto_spec news base (oldStatusFields mapRef) hblook
    refine ⟨merged, ?_, ?_, ?_⟩
    · simp only [memUpsert, hopt, hfound, hbody, hreq, Option.some_bind, hstatus,
        if_true, eq_self_iff_true]
      rw [hbeq, hmerge]
    · intro k hk
      rw [hmother k hk, hbother k hk]
    · exact ⟨_, hmstatus, fun k => alookup_foldl_aupsert news (oldStatusFields mapRef) hnodup k⟩

theorem memUpsert_updateStateOnly_spec_witness :
    c7Req.options.updateStateOnly = true ∧
    ∃ merged,
      memUpsert c7Store c7Req =
        .ok (aupsert c7Store c7Req.value.id
              (.entry { id := c7Req.value.id, body := .obj merged,
                        etag := upsertETag c7Req.value.etag }))
          c7Req.value.id ∧
      (∀ k, k ≠ "status" → alookup merged k = alookup c7OldBody k) ∧
      ∃ ms, alookup merged "status" = some (.obj ms) ∧
        ∀ k, alookup ms k = (alookup c7News k).or (alookup (oldStatusFields c7OldBody) k) :=
  ⟨rfl,
    (memUpsert_updateStateOnly_spec c7Store c7Req rfl).2
      ⟨"i", .obj c7OldBody, "3"⟩ c7OldBody [("status", .obj c7News)] c7News
      rfl rfl rfl rfl (by decide) (Or.inr ⟨_, rfl⟩)⟩

/-! ## Claim C10 -/

/-- C10 (confirmed): with the `UpdateStateOnly` option and an existing entry,
the unguarded type assertions make `Upsert` panic rather than return a
classified error whenever the existing body is not a map, or the JSON view of
the new body has no `status` key holding an object. -/
theorem memUpsert_panics_spec (store : MemStore) (req : UpsertRequest) (e : StateEntry)
    (hopt : req.options.updateStateOnly = true)
    (hfound : alookup store req.value.id = some (.entry e)) :
    ((∀ fs, e.body ≠ .obj fs) → memUpsert store req = .panics) ∧
    (∀ mapRef, e.body = .obj mapRef →
      (∀ bs news, req.value.body = .obj bs → alookup bs "status" ≠ some (.obj news)) →
      memUpsert store req = .panics) := by
  constructor
  · intro hnotmap
    simp only [memUpsert, hopt, if_pos, hfound]
  · intro mapRef hbody hnostatus
    simp only [memUpsert, hopt, if_pos, hfound, hbody]
    cases hrb : req.value.body with
    | obj bs =>
      have hns := hnostatus bs
      simp only [Option.some_bind]
      cases hs : alookup bs "status" with
      | none => simp
      | some v =>
        cases v with
        | obj news => exact absurd hs (hns news hrb)
        | null => simp
        | str s => simp
        | num n => simp
        | boolean b => simp
        | arr es => simp
    | null => simp
    | str s => simp
    | num n => simp
    | boolean b => simp
    | arr es => simp

theorem memUpsert_panics_spec_witness :
    c10Req.options.updateStateOnly = true ∧
    alookup c10Store c10Req.value.id =
      some (.entry { id := "i", body := .str "not-a-map", etag := "1" }) ∧
    memUpsert c10Store c10Req = .panics :=
  ⟨rfl, rfl,
    (memUpsert_panics_spec c10Store c10Req _ rfl rfl).1 (fun _ h => JVal.noConfusion h)⟩

/-! ## Claim C8 -/

/-- C8 (confirmed): in the instance reconciler's update path,
`generationMatch` stays at its default `true` whenever the summary's
`Generation` string does not parse as an int64 (for example when it is empty),
so a recent summary is applied to the instance status and no job is queued;
`generationMatch` is `false` exactly when the string parses to an int64
different from the instance's generation. -/
theorem generationMatch_default_spec (g : String) (n : Int) (recent : Bool) :
    (parseInt64 g = none →
      generationMatch g n = true ∧
      (recent = true → instanceUpdateAction g n recent = .applyStatus)) ∧
    (generationMatch g n = false ↔ ∃ v, parseInt64 g = some v ∧ v ≠ n) := by
  constructor
  · intro hp
    refine ⟨by simp [generationMatch, hp], ?_⟩
    intro hr
    simp [instanceUpdateAction, generationMatch, hp, hr]
  · constructor
    · intro hf
      cases hp : parseInt64 g with
      | none => simp [generationMatch, hp] at hf
      | some v =>
        refine ⟨v, rfl, ?_⟩
        intro hv
        simp [generationMatch, hp, hv] at hf
    · rintro ⟨v, hp, hv⟩
      simp [generationMatch, hp, hv]

theorem generationMatch_default_spec_witness :
    parseInt64 "" = none ∧
    (generationMatch "" 5 = true ∧
      (true = true → instanceUpdateAction "" 5 true = .applyStatus)) ∧
    (generationMatch "" 5 = false ↔ ∃ v, parseInt64 "" = some v ∧ v ≠ 5) :=
  ⟨rfl, (generationMatch_default_spec "" 5 true).1 rfl, (generationMatch_default_spec "" 5 true).2⟩

/-! ## Claim C6 -/

/-- C6 (confirmed): after a successful publish, an `Apply` call that receives
no response on its channel before the 8-second deadline returns an
`InternalError` whose message is exactly the one in the source; a delivered
response yields `nil` exactly when its state is `OK` (200) or `Accepted`
(202), and otherwise an error carrying the response state and the stringified
response body. -/
theorem mqttApply_spec (resp : COAResponse) :
    mqttApply none =
      some { message := "didn\x27t get response to Apply() call over MQTT",
             state := vInternalError } ∧
    vInternalError = 500 ∧ mqttApplyTimeoutSeconds = 8 ∧
    (mqttApply (some resp) = none ↔ (resp.state = vOK ∨ resp.state = vAccepted)) ∧
    (¬(resp.state = vOK ∨ resp.state = vAccepted) →
      mqttApply (some resp) = some { message := resp.body, state := resp.state }) := by
  refine ⟨rfl, rfl, rfl, ?_, ?_⟩
  · constructor
    · intro h
      by_contra hstate
      push_neg at hstate
      have hok : (resp.state == vOK || resp.state == vAccepted) = false := by
        simp [hstate.1, hstate.2]
      simp [mqttApply, dispatchResponse, hok] at h
    · intro h
      have hok : (resp.state == vOK || resp.state == vAccepted) = true := by
        rcases h with h | h <;> simp [h]
      simp [mqttApply, dispatchResponse, hok]
  · intro h
    push_neg at h
    have hok : (resp.state == vOK || resp.state == vAccepted) = false := by
      simp [h.1, h.2]
    simp [mqttApply, dispatchResponse, hok]

theorem mqttApply_spec_witness :
    ¬(((⟨404, "oops"⟩ : COAResponse).state = vOK) ∨
        ((⟨404, "oops"⟩ : COAResponse).state = vAccepted)) ∧
    mqttApply (some ⟨404, "oops"⟩) = some { message := "oops", state := 404 } :=
  ⟨by decide, (mqttApply_spec ⟨404, "oops"⟩).2.2.2.2 (by decide)⟩

/-- C3 counterexample: with two current components that share the name `A`
(the first changed with respect to the desired component, the second not),
`canSkipStep` consults only the first and returns `false`, while the claim's
condition — *some* unchanged current component with that name — holds, so the
claimed equivalence fails. -/
theorem canSkipStep_cex :
    canSkipStep c3Rule c3Step "T" [c3CompA1, c3CompA2] c3State = false ∧
    specCanSkip c3Rule c3Step "T" [c3CompA1, c3CompA2] c3State := by
  constructor
  · decide
  · decide

/-- Distinct list members with injectively-mapped images: from nodup names. -/
theorem nodup_map_inj {α β : Type} {f : α → β} {l : List α} (h : (l.map f).Nodup)
    {a b : α} (ha : a ∈ l) (hb : b ∈ l) (hf : f a = f b) : a = b := by
  induction l with
  | nil => cases ha
  | cons x rest ih =>
    simp only [List.map_cons, List.nodup_cons] at h
    rcases List.mem_cons.1 ha with rfl | ha' <;> rcases List.mem_cons.1 hb with rfl | hb'
    · rfl
    · exact absurd (hf ▸ List.mem_map_of_mem f hb') h.1
    · exact absurd (hf ▸ List.mem_map_of_mem f ha') h.1
    · exact ih h.2 ha' hb'

theorem canSkipEntry_delete_iff (icc : ComponentSpec → ComponentSpec → Bool)
    (target : String) (cc : List ComponentSpec) (st : DeploymentState)
    (comp : ComponentSpec) :
    canSkipEntry icc target cc st ⟨.delete, comp⟩ = true ↔
      ¬∃ c ∈ cc, c.name = comp.name ∧ tcGet st (comp.name ++ "::" ++ target) ≠ "" := by
  show (!(cc.any fun c =>
      c.name == comp.name && tcGet st (comp.name ++ "::" ++ target) != "")) = true ↔ _
  rw [Bool.not_eq_true', List.any_eq_false]
  constructor
  · rintro h ⟨c, hc, hname, hkey⟩
    exact h c hc (by simp [hname, hkey])
  · intro h c hc hp
    simp only [Bool.and_eq_true, beq_iff_eq, bne_iff_ne, ne_eq] at hp
    exact h ⟨c, hc, hp.1, hp.2⟩

theorem canSkipEntry_update_iff (icc : ComponentSpec → ComponentSpec → Bool)
    (target : String) (cc : List ComponentSpec) (st : DeploymentState)
    (comp : ComponentSpec) (hnodup : (cc.map ComponentSpec.name).Nodup) :
    canSkipEntry icc target cc st ⟨.update, comp⟩ = true ↔
      ∃ c ∈ cc, c.name = comp.name ∧
        tcGet st (comp.name ++ "::" ++ target) ≠ "" ∧
        ¬hasPrefixDash (tcGet st (comp.name ++ "::" ++ target)) = true ∧
        icc c comp = false := by
  show (match cc.find? (fun c =>
      c.name == comp.name && tcGet st (comp.name ++ "::" ++ target) != "" &&
      !hasPrefixDash (tcGet st (comp.name ++ "::" ++ target))) with
    | some c => !icc c comp
    | none => false) = true ↔ _
  cases hfind : cc.find? (fun c =>
      c.name == comp.name && tcGet st (comp.name ++ "::" ++ target) != "" &&
      !hasPrefixDash (tcGet st (comp.name ++ "::" ++ target))) with
  | none =>
    constructor
    · intro hb
      exact absurd hb (by simp)
    · rintro ⟨c, hc, hname, hkey, hpre, hrule⟩
      rw [List.find?_eq_none] at hfind
      exact absurd (hfind c hc) (by simp [hname, hkey, hpre])
  | some c =>
    have hmem := List.mem_of_find?_eq_some hfind
    have hpred := List.find?_some hfind
    simp only [Bool.and_eq_true, beq_iff_eq, bne_iff_ne, ne_eq, Bool.not_eq_true'] at hpred
    constructor
    · intro hb
      have hb' : icc c comp = false := by simpa using hb
      exact ⟨c, hmem, hpred.1.1, hpred.1.2, by simp [hpred.2], hb'⟩
    · rintro ⟨c', hc', hname, hkey, hpre, hrule⟩
      have heq : c = c' := nodup_map_inj hnodup hmem hc' (hpred.1.1.trans hname.symm)
      subst heq
      simp [hrule]

/-- C3 (amended): for current component lists with pairwise-distinct names —
the data-model invariant for solution components — `canSkipStep` returns true
iff every entry of the step satisfies the claimed condition: a `delete` entry
has no current component of that name still bound in the test state, and an
`update` entry has a current component of that name bound with a non-tombstone
role that the provider's validation rule reports unchanged. -/
theorem canSkipStep_iff_spec (isComponentChanged : ComponentSpec → ComponentSpec → Bool)
    (step : DeploymentStep) (target : String)
    (currentComponents : List ComponentSpec) (state : DeploymentState)
    (hnodup : (currentComponents.map ComponentSpec.name).Nodup) :
    canSkipStep isComponentChanged step target currentComponents state = true ↔
      specCanSkip isComponentChanged step target currentComponents state := by
  unfold canSkipStep
  rw [List.all_eq_true]
  constructor
  · intro h e he
    obtain ⟨act, comp⟩ := e
    cases act with
    | delete =>
      refine ⟨fun _ => ?_, fun hupd => ComponentAction.noConfusion hupd⟩
      exact (canSkipEntry_delete_iff isComponentChanged target currentComponents state comp).1
        (h ⟨.delete, comp⟩ he)
    | update =>
      refine ⟨fun hdel => ComponentAction.noConfusion hdel, fun _ => ?_⟩
      exact (canSkipEntry_update_iff isComponentChanged target currentComponents state comp
        hnodup).1 (h ⟨.update, comp⟩ he)
  · intro h e he
    obtain ⟨act, comp⟩ := e
    cases act with
    | delete =>
      exact (canSkipEntry_delete_iff isComponentChanged target currentComponents state comp).2
        ((h ⟨.delete, comp⟩ he).1 rfl)
    | update =>
      exact (canSkipEntry_update_iff isComponentChanged target currentComponents state comp
        hnodup).2 ((h ⟨.update, comp⟩ he).2 rfl)

theorem canSkipStep_iff_spec_witness :
    (([⟨"A", "", [], []⟩] : List ComponentSpec).map ComponentSpec.name).Nodup ∧
    (canSkipStep (fun _ _ => false) c3WStep "T" [⟨"A", "", [], []⟩] c3State = true ↔
      specCanSkip (fun _ _ => false) c3WStep "T" [⟨"A", "", [], []⟩] c3State) :=
  ⟨by decide,
    canSkipStep_iff_spec (fun _ _ => false) c3WStep "T" [⟨"A", "", [], []⟩] c3State (by decide)⟩

/-- A rank function strictly decreasing along edges witnesses acyclicity. -/
theorem acyclic_of_rank (cs : List ComponentSpec) (f : Nat → Nat)
    (h : ∀ i j, dependsOn cs i j → f j < f i) : acyclic cs := by
  intro i hti
  have key : ∀ a b, Relation.TransGen (dependsOn cs) a b → f b < f a := by
    intro a b hab
    induction hab with
    | single h₁ => exact h _ _ h₁
    | tail _ h₁ ih => exact lt_trans (h _ _ h₁) ih
  exact lt_irrefl _ (key i i hti)

theorem depFound_iff (c : ComponentSpec) (nm : String) :
    depFound c nm = true ↔ nm ∈ c.dependencies := by
  simp [depFound]

theorem decrementInDegrees_length (cs : List ComponentSpec) (ds : List Int) (nm : String)
    (h : ds.length = cs.length) : (decrementInDegrees cs ds nm).length = cs.length := by
  simp [decrementInDegrees, h]

theorem decrementInDegrees_getD (cs : List ComponentSpec) (ds : List Int) (nm : String)
    (h : ds.length = cs.length) (i : Nat) (hi : i < cs.length) :
    (decrementInDegrees cs ds nm).getD i 0 =
      if depFound (cs.getD i default) nm then ds.getD i 0 - 1 else ds.getD i 0 := by
  have hzip : (cs.zip ds).length = cs.length := by simp [h]
  have hlen : i < (decrementInDegrees cs ds nm).length := by
    rw [decrementInDegrees_length cs ds nm h]; exact hi
  rw [List.getD_eq_get _ _ hlen]
  have hz : i < (cs.zip ds).length := by rw [hzip]; exact hi
  simp only [decrementInDegrees, List.get_map]
  rw [List.get_zip]
  rw [List.getD_eq_get cs default hi, List.getD_eq_get ds 0 (by rw [h]; exact hi)]

theorem newlyReady_mem (cs : List ComponentSpec) (ds : List Int) (nm : String) (i : Nat) :
    i ∈ newlyReady cs ds nm ↔
      i < cs.length ∧ depFound (cs.getD i default) nm = true ∧ ds.getD i 0 = 1 := by
  simp [newlyReady, List.mem_filter, and_assoc]

theorem remainingDeg_nonneg (cs : List ComponentSpec) (ret : List Nat) (i : Nat) :
    0 ≤ remainingDeg cs ret i := by
  unfold remainingDeg
  have := List.countP_le_length
    (p := fun d => decide (d ∈ emittedNames cs ret)) (l := (cs.getD i default).dependencies)
  omega

theorem remainingDeg_eq_zero_iff (cs : List ComponentSpec) (ret : List Nat) (i : Nat) :
    remainingDeg cs ret i = 0 ↔
      ∀ d ∈ (cs.getD i default).dependencies, d ∈ emittedNames cs ret := by
  unfold remainingDeg
  have hle := List.countP_le_length
    (p := fun d => decide (d ∈ emittedNames cs ret)) (l := (cs.getD i default).dependencies)
  rw [show ((((cs.getD i default).dependencies.length : Int) -
      ((cs.getD i default).dependencies.countP fun d => decide (d ∈ emittedNames cs ret)) = 0) ↔
      ((cs.getD i default).dependencies.countP fun d => decide (d ∈ emittedNames cs ret)) =
        (cs.getD i default).dependencies.length) from by omega]
  rw [List.countP_eq_length]
  simp

theorem countP_names_append (deps names : List String) (nm : String)
    (hnodup : deps.Nodup) (hnm : nm ∉ names) :
    (deps.countP fun d => decide (d ∈ names ++ [nm])) =
      (deps.countP fun d => decide (d ∈ names)) + (if nm ∈ deps then 1 else 0) := by
  induction deps with
  | nil => simp
  | cons d rest ih =>
    simp only [List.nodup_cons] at hnodup
    rw [List.countP_cons, List.countP_cons]
    by_cases hd : d = nm
    · subst hd
      rw [ih hnodup.2]
      simp [hnm, hnodup.1]
    · have hmem : decide (d ∈ names ++ [nm]) = decide (d ∈ names) := by
        simp [List.mem_append, hd]
      have hcons : (nm ∈ d :: rest) ↔ nm ∈ rest := by
        constructor
        · intro h
          rcases List.mem_cons.1 h with h1 | h1
          · exact absurd h1.symm hd
          · exact h1
        · exact fun h => List.mem_cons_of_mem _ h
      rw [ih hnodup.2, hmem]
      simp only [hcons]
      omega

theorem name_inj {cs : List ComponentSpec} (hnames : (cs.map ComponentSpec.name).Nodup)
    {i j : Nat} (hi : i < cs.length) (hj : j < cs.length)
    (heq : (cs.getD i default).name = (cs.getD j default).name) : i = j := by
  have hi' : i < (cs.map ComponentSpec.name).length := by simpa using hi
  have hj' : j < (cs.map ComponentSpec.name).length := by simpa using hj
  have hget : (cs.map ComponentSpec.name).get ⟨i, hi'⟩ =
      (cs.map ComponentSpec.name).get ⟨j, hj'⟩ := by
    simp only [List.get_map]
    rw [List.getD_eq_get cs default hi, List.getD_eq_get cs default hj] at heq
    exact heq
  have := (List.Nodup.get_inj_iff hnames).1 hget
  exact congrArg Fin.val this

theorem length_le_of_nodup_lt (l : List Nat) (n : Nat) (hn : l.Nodup)
    (hb : ∀ i ∈ l, i < n) : l.length ≤ n := by
  have hsub : l.toFinset ⊆ Finset.range n := fun x hx =>
    Finset.mem_range.2 (hb x (List.mem_toFinset.1 hx))
  have hcard := Finset.card_le_card hsub
  rwa [List.toFinset_card_of_nodup hn, Finset.card_range] at hcard

theorem range_map_getD (cs : List ComponentSpec) :
    ((List.range cs.length).map fun i => cs.getD i default) = cs := by
  apply List.ext_get
  · simp
  · intro i h1 h2
    simp only [List.get_map, List.get_range]
    exact (List.getD_eq_get cs default h2).symm ▸ rfl

theorem indexOf_lt_of_mem_take {l : List Nat} {k : Nat} {a : Nat} (h : a ∈ l.take k) :
    l.indexOf a < k := by
  induction l generalizing k with
  | nil => simp at h
  | cons x rest ih =>
    cases k with
    | zero => simp at h
    | succ k =>
      rw [List.take_succ_cons] at h
      by_cases hx : x = a
      · subst hx
        simp [List.indexOf_cons_self]
      · rcases List.mem_cons.1 h with h1 | h1
        · exact absurd h1.symm hx
        · rw [List.indexOf_cons_ne _ hx]
          exact Nat.succ_lt_succ (ih h1)

theorem mem_emittedNames (cs : List ComponentSpec) (ret : List Nat) (d : String) :
    d ∈ emittedNames cs ret ↔ ∃ j ∈ ret, (cs.getD j default).name = d := by
  simp [emittedNames]

theorem mem_of_lt_length (cs : List ComponentSpec) {i : Nat} (hi : i < cs.length) :
    cs.getD i default ∈ cs := by
  rw [List.getD_eq_get cs default hi]
  exact List.get_mem cs i hi

/-- One loop iteration preserves the invariant. -/
theorem kahnInv_step (cs : List ComponentSpec)
    (hnames : (cs.map ComponentSpec.name).Nodup)
    (hdeps : ∀ c ∈ cs, c.dependencies.Nodup)
    (ds : List Int) (q0 : Nat) (qrest ret : List Nat)
    (h : KahnInv cs ds (q0 :: qrest) ret) :
    KahnInv cs (decrementInDegrees cs ds (cs.getD q0 default).name)
      (qrest ++ newlyReady cs ds (cs.getD q0 default).name) (ret ++ [q0]) := by
  have hq0 : q0 < cs.length :=
    h.bounded q0 (List.mem_append_right _ (List.mem_cons_self _ _))
  have hnd := h.nodup
  rw [List.nodup_append] at hnd
  obtain ⟨hretnd, hqnd, hdisj⟩ := hnd
  have hq0notret : q0 ∉ ret := fun hmem => hdisj hmem (List.mem_cons_self _ _)
  have hnmfresh : (cs.getD q0 default).name ∉ emittedNames cs ret := by
    intro hmem
    obtain ⟨j, hjret, hjname⟩ := (mem_emittedNames cs ret _).1 hmem
    have hj : j < cs.length := h.bounded j (List.mem_append_left _ hjret)
    have : j = q0 := name_inj hnames hj hq0 hjname
    exact hq0notret (this ▸ hjret)
  have hdall : ∀ d ∈ (cs.getD q0 default).dependencies, d ∈ emittedNames cs ret :=
    h.queueDone q0 (List.mem_cons_self _ _)
  have hq0zero : ds.getD q0 0 = 0 := by
    rw [h.dsval q0 hq0]
    exact (remainingDeg_eq_zero_iff cs ret q0).2 hdall
  have hqrest_zero : ∀ i ∈ qrest, ds.getD i 0 = 0 := by
    intro i hiq
    have hi : i < cs.length :=
      h.bounded i (List.mem_append_right _ (List.mem_cons_of_mem _ hiq))
    rw [h.dsval i hi]
    exact (remainingDeg_eq_zero_iff cs ret i).2
      (h.queueDone i (List.mem_cons_of_mem _ hiq))
  have hnames' : emittedNames cs (ret ++ [q0]) =
      emittedNames cs ret ++ [(cs.getD q0 default).name] := by
    simp [emittedNames]
  have hremnew : ∀ i < cs.length, remainingDeg cs (ret ++ [q0]) i =
      remainingDeg cs ret i -
        (if (cs.getD q0 default).name ∈ (cs.getD i default).dependencies then 1 else 0) := by
    intro i hi
    unfold remainingDeg
    rw [hnames']
    rw [countP_names_append (cs.getD i default).dependencies (emittedNames cs ret)
      (cs.getD q0 default).name (hdeps _ (mem_of_lt_length cs hi)) hnmfresh]
    push_cast
    by_cases hm : (cs.getD q0 default).name ∈ (cs.getD i default).dependencies
    · rw [if_pos hm]; ring
    · rw [if_neg hm]; ring
  have hds' : ∀ i < cs.length,
      (decrementInDegrees cs ds (cs.getD q0 default).name).getD i 0 =
        if depFound (cs.getD i default) (cs.getD q0 default).name then
          ds.getD i 0 - 1 else ds.getD i 0 :=
    fun i hi => decrementInDegrees_getD cs ds _ h.dslen i hi
  have hnewly_nd : (newlyReady cs ds (cs.getD q0 default).name).Nodup :=
    (List.nodup_range _).filter _
  refine ⟨?_, ?_, ?_, ?_, ?_, ?_, ?_, ?_⟩
  · exact decrementInDegrees_length cs ds _ h.dslen
  · intro i hi
    rw [hds' i hi, hremnew i hi, h.dsval i hi]
    by_cases hf : depFound (cs.getD i default) (cs.getD q0 default).name = true
    · rw [if_pos hf, if_pos ((depFound_iff _ _).1 hf)]
    · rw [if_neg hf, if_neg (fun hm => hf ((depFound_iff _ _).2 hm))]
      ring
  · have hsplit : (ret ++ [q0]) ++ (qrest ++ newlyReady cs ds (cs.getD q0 default).name) =
        ret ++ q0 :: (qrest ++ newlyReady cs ds (cs.getD q0 default).name) := by
      simp
    rw [hsplit, List.nodup_middle, List.nodup_cons]
    constructor
    · intro hmem
      rcases List.mem_append.1 hmem with hmem | hmem
      · exact hq0notret hmem
      · rcases List.mem_append.1 hmem with hmem | hmem
        · exact (List.nodup_cons.1 hqnd).1 hmem
        · have := ((newlyReady_mem cs ds _ q0).1 hmem).2.2
          rw [hq0zero] at this
          exact absurd this (by decide)
    · rw [List.nodup_append]
      refine ⟨hretnd, ?_, ?_⟩
      · rw [List.nodup_append]
        refine ⟨(List.nodup_cons.1 hqnd).2, hnewly_nd, ?_⟩
        intro a haq hanew
        have h1 := hqrest_zero a haq
        have h2 := ((newlyReady_mem cs ds _ a).1 hanew).2.2
        rw [h1] at h2
        exact absurd h2 (by decide)
      · intro a haret hamem
        rcases List.mem_append.1 hamem with hmem | hmem
        · exact hdisj haret (List.mem_cons_of_mem _ hmem)
        · have h1 := h.emNonpos a haret
          have h2 := ((newlyReady_mem cs ds _ a).1 hmem).2.2
          rw [h2] at h1
          exact absurd h1 (by decide)
  · intro i hmem
    rcases List.mem_append.1 hmem with hmem | hmem
    · rcases List.mem_append.1 hmem with hmem | hmem
      · exact h.bounded i (List.mem_append_left _ hmem)
      · exact (List.mem_singleton.1 hmem) ▸ hq0
    · rcases List.mem_append.1 hmem with hmem | hmem
      · exact h.bounded i (List.mem_append_right _ (List.mem_cons_of_mem _ hmem))
      · exact ((newlyReady_mem cs ds _ i).1 hmem).1
  · intro i hmem d hd
    rw [hnames']
    rcases List.mem_append.1 hmem with hmem | hmem
    · exact List.mem_append_left _
        (h.queueDone i (List.mem_cons_of_mem _ hmem) d hd)
    · obtain ⟨hi, hf, hone⟩ := (newlyReady_mem cs ds _ i).1 hmem
      have hrem : remainingDeg cs (ret ++ [q0]) i = 0 := by
        rw [hremnew i hi, if_pos ((depFound_iff _ _).1 hf)]
        rw [h.dsval i hi] at hone
        omega
      have := (remainingDeg_eq_zero_iff cs (ret ++ [q0]) i).1 hrem d hd
      rwa [hnames'] at this
  · intro i hi hnr hnq
    have hinotret : i ∉ ret := fun hmem => hnr (List.mem_append_left _ hmem)
    have hineq : i ≠ q0 := fun heq => hnr (List.mem_append_right _ (heq ▸ List.mem_singleton_self _))
    have hinotqrest : i ∉ qrest := fun hmem => hnq (List.mem_append_left _ hmem)
    have hinotnew : i ∉ newlyReady cs ds (cs.getD q0 default).name :=
      fun hmem => hnq (List.mem_append_right _ hmem)
    have hold := h.unseenPos i hi hinotret (by
      intro hmem
      rcases List.mem_cons.1 hmem with heq | hmem
      · exact hineq heq
      · exact hinotqrest hmem)
    rw [hds' i hi]
    by_cases hf : depFound (cs.getD i default) (cs.getD q0 default).name = true
    · have hne1 : ds.getD i 0 ≠ 1 := by
        intro hone
        exact hinotnew ((newlyReady_mem cs ds _ i).2 ⟨hi, hf, hone⟩)
      rw [if_pos hf]
      omega
    · rw [if_neg hf]
      exact hold
  · intro i hmem
    have hi : i < cs.length := by
      rcases List.mem_append.1 hmem with hmem | hmem
      · exact h.bounded i (List.mem_append_left _ hmem)
      · exact (List.mem_singleton.1 hmem) ▸ hq0
    rw [hds' i hi]
    have hle : ds.getD i 0 ≤ 0 := by
      rcases List.mem_append.1 hmem with hmem | hmem
      · exact h.emNonpos i hmem
      · rw [(List.mem_singleton.1 hmem)]
        omega
    by_cases hf : depFound (cs.getD i default) (cs.getD q0 default).name = true
    · rw [if_pos hf]; omega
    · rw [if_neg hf]; exact hle
  · intro k hk d hd
    have hkle : k < ret.length + 1 := by simpa using hk
    by_cases hklt : k < ret.length
    · have hget : (ret ++ [q0]).get ⟨k, hk⟩ = ret.get ⟨k, hklt⟩ := List.get_append k hklt
      have htake : (ret ++ [q0]).take k = ret.take k := by
        rw [List.take_append_eq_append_take]
        have h0 : k - ret.length = 0 := by omega
        rw [h0]
        simp
      rw [hget] at hd
      rw [htake]
      exact h.emittedDone k hklt d hd
    · have hkeq : k = ret.length := by omega
      subst hkeq
      have hget : (ret ++ [q0]).get ⟨ret.length, hk⟩ = q0 := by
        rw [List.get_eq_getElem]
        rw [List.getElem_append_right (Nat.le_refl ret.length)]
        simp
      have htake : (ret ++ [q0]).take ret.length = ret := List.take_left ret [q0]
      rw [hget] at hd
      rw [htake]
      exact hdall d hd

/-- With fuel at least `cs.length - ret.length` the loop always drains the
queue: every index is enqueued at most once, so the queue is empty whenever
the fuel runs out, and the final state still satisfies the invariant. -/
theorem kahnLoop_spec (cs : List ComponentSpec)
    (hnames : (cs.map ComponentSpec.name).Nodup)
    (hdeps : ∀ c ∈ cs, c.dependencies.Nodup) :
    ∀ fuel (ds : List Int) (queue ret : List Nat), KahnInv cs ds queue ret →
      cs.length ≤ fuel + ret.length →
      ∃ ds', KahnInv cs ds' [] (kahnLoop cs fuel ds queue ret) := by
  intro fuel
  induction fuel with
  | zero =>
    intro ds queue ret h hb
    have hlen := length_le_of_nodup_lt (ret ++ queue) cs.length h.nodup h.bounded
    rw [List.length_append] at hlen
    have hq : queue = [] := List.length_eq_zero.1 (by omega)
    subst hq
    exact ⟨ds, h⟩
  | succ fuel ih =>
    intro ds queue ret h hb
    cases queue with
    | nil => exact ⟨ds, h⟩
    | cons q0 qrest =>
      have hstep := kahnInv_step cs hnames hdeps ds q0 qrest ret h
      have hb' : cs.length ≤ fuel + (ret ++ [q0]).length := by
        rw [List.length_append, List.length_singleton]
        omega
      exact ih _ _ _ hstep hb'

/-- The state set up by `sortByDepedencies` before the loop satisfies the
invariant. -/
theorem kahnInv_init (cs : List ComponentSpec) :
    KahnInv cs (cs.map fun c => (c.dependencies.length : Int))
      ((List.range cs.length).filter fun i =>
        (cs.getD i default).dependencies.length == 0) [] := by
  have hget : ∀ i, i < cs.length →
      (cs.map fun c => (c.dependencies.length : Int)).getD i 0 =
        ((cs.getD i default).dependencies.length : Int) := by
    intro i hi
    have hmi : i < (cs.map fun c => (c.dependencies.length : Int)).length := by simpa using hi
    rw [List.getD_eq_get _ _ hmi, List.get_map, List.getD_eq_get cs default hi]
  have hrem : ∀ i, remainingDeg cs [] i = ((cs.getD i default).dependencies.length : Int) := by
    intro i
    unfold remainingDeg
    have : ((cs.getD i default).dependencies.countP
        fun d => decide (d ∈ emittedNames cs [])) = 0 := by
      rw [List.countP_eq_zero]
      intro d _
      simp [emittedNames]
    rw [this]
    ring
  refine ⟨by simp, ?_, ?_, ?_, ?_, ?_, ?_, ?_⟩
  · intro i hi
    rw [hget i hi, hrem i]
  · simpa using (List.nodup_range cs.length).filter _
  · intro i hmem
    simp only [List.nil_append, List.mem_filter, List.mem_range] at hmem
    exact hmem.1
  · intro i hmem d hd
    simp only [List.mem_filter, List.mem_range] at hmem
    have : (cs.getD i default).dependencies.length = 0 := by
      have := hmem.2
      simpa using this
    rw [List.length_eq_zero.1 this] at hd
    cases hd
  · intro i hi _ hnq
    rw [hget i hi]
    have : ¬(cs.getD i default).dependencies.length = 0 := by
      intro h0
      exact hnq (List.mem_filter.2 ⟨List.mem_range.2 hi, by simpa using h0⟩)
    omega
  · intro i hmem
    cases hmem
  · intro k hk
    cases hk

/-- If the loop emitted every component, the emitted list is a permutation
of the input, all dependencies resolve, and the graph is acyclic. -/
theorem kahn_final_sound (cs : List ComponentSpec)
    (hnames : (cs.map ComponentSpec.name).Nodup)
    (ds : List Int) (final : List Nat)
    (h : KahnInv cs ds [] final) (hlen : final.length = cs.length) :
    (final.map fun i => cs.getD i default).Perm cs ∧ resolvesAll cs ∧ acyclic cs := by
  have hnodup : final.Nodup := by simpa using h.nodup
  have hbnd : ∀ i ∈ final, i < cs.length := fun i hi => h.bounded i (by simpa using hi)
  have hsub : final ⊆ List.range cs.length := fun i hi => List.mem_range.2 (hbnd i hi)
  have hsp : final.Subperm (List.range cs.length) := List.subperm_of_subset hnodup hsub
  have hperm_range : final.Perm (List.range cs.length) :=
    hsp.perm_of_length_le (by simp [hlen])
  have hmem_all : ∀ j, j < cs.length → j ∈ final := fun j hj =>
    hperm_range.mem_iff.2 (List.mem_range.2 hj)
  refine ⟨?_, ?_, ?_⟩
  · have := hperm_range.map fun i => cs.getD i default
    rwa [range_map_getD cs] at this
  · intro i hi d hd
    obtain ⟨⟨k, hk⟩, hik⟩ := List.mem_iff_get.1 (hmem_all i hi)
    have hdone := h.emittedDone k hk
    rw [hik] at hdone
    obtain ⟨j, hjmem, hjname⟩ := (mem_emittedNames cs _ d).1 (hdone d hd)
    have hjfin : j ∈ final := List.mem_of_mem_take hjmem
    exact ⟨j, hbnd j hjfin, hjname⟩
  · apply acyclic_of_rank cs fun i => final.indexOf i
    rintro i j ⟨hi, hj, hdep⟩
    have hki : final.indexOf i < final.length := List.indexOf_lt_length.2 (hmem_all i hi)
    have hgi : final.get ⟨final.indexOf i, hki⟩ = i := List.indexOf_get hki
    have hdone := h.emittedDone (final.indexOf i) hki
    rw [hgi] at hdone
    obtain ⟨j', hj'mem, hj'name⟩ := (mem_emittedNames cs _ _).1 (hdone _ hdep)
    have hj'fin : j' ∈ final := List.mem_of_mem_take hj'mem
    have hj' : j' < cs.length := hbnd j' hj'fin
    have hjj : j' = j := name_inj hnames hj' hj hj'name
    subst hjj
    exact indexOf_lt_of_mem_take hj'mem

/-- If all dependencies resolve and the graph is acyclic, the loop emits
every component. -/
theorem kahn_final_complete (cs : List ComponentSpec)
    (ds : List Int) (final : List Nat)
    (h : KahnInv cs ds [] final) (hres : resolvesAll cs) (hacyc : acyclic cs) :
    final.length = cs.length := by
  by_contra hne
  have hnodup : final.Nodup := by simpa using h.nodup
  have hbnd : ∀ i ∈ final, i < cs.length := fun i hi => h.bounded i (by simpa using hi)
  have hex : ∃ i, i < cs.length ∧ i ∉ final := by
    by_contra hno
    push_neg at hno
    have hsub : Finset.range cs.length ⊆ final.toFinset := fun x hx =>
      List.mem_toFinset.2 (hno x (Finset.mem_range.1 hx))
    have hcard := Finset.card_le_card hsub
    rw [Finset.card_range, List.toFinset_card_of_nodup hnodup] at hcard
    have := length_le_of_nodup_lt final cs.length hnodup hbnd
    omega
  have hsucc : ∀ i, i < cs.length → i ∉ final →
      ∃ j, (j < cs.length ∧ j ∉ final) ∧ dependsOn cs i j := by
    intro i hi hni
    have hpos := h.unseenPos i hi hni (List.not_mem_nil i)
    rw [h.dsval i hi] at hpos
    have hnot : ¬∀ d ∈ (cs.getD i default).dependencies, d ∈ emittedNames cs final := by
      intro hall
      rw [(remainingDeg_eq_zero_iff cs final i).2 hall] at hpos
      exact lt_irrefl 0 hpos
    push_neg at hnot
    obtain ⟨d, hd, hdnot⟩ := hnot
    obtain ⟨j, hj, hjname⟩ := hres i hi d hd
    have hjnot : j ∉ final := by
      intro hjf
      exact hdnot ((mem_emittedNames cs final d).2 ⟨j, hjf, hjname⟩)
    exact ⟨j, ⟨hj, hjnot⟩, hi, hj, hjname ▸ hd⟩
  obtain ⟨i₀, hi₀, hni₀⟩ := hex
  let g : ℕ → {x : ℕ // x < cs.length ∧ x ∉ final} := fun k =>
    Nat.rec ⟨i₀, hi₀, hni₀⟩
      (fun _ prev => ⟨Classical.choose (hsucc prev.1 prev.2.1 prev.2.2),
        (Classical.choose_spec (hsucc prev.1 prev.2.1 prev.2.2)).1⟩) k
  have hedge : ∀ k, dependsOn cs (g k).1 (g (k + 1)).1 := fun k =>
    (Classical.choose_spec (hsucc (g k).1 (g k).2.1 (g k).2.2)).2
  have hchain : ∀ k m, Relation.TransGen (dependsOn cs) (g k).1 (g (k + m + 1)).1 := by
    intro k m
    induction m with
    | zero => exact Relation.TransGen.single (hedge k)
    | succ m ihm => exact Relation.TransGen.tail ihm (hedge (k + m + 1))
  have key : ∀ a b : ℕ, a < b → (g a).1 = (g b).1 → False := by
    intro a b hab heq
    have hch := hchain a (b - a - 1)
    have hidx : a + (b - a - 1) + 1 = b := by omega
    rw [hidx, ← heq] at hch
    exact hacyc _ hch
  have hUcard : ((Finset.range cs.length).filter fun x => x ∉ final).card <
      (Finset.range (cs.length + 1)).card := by
    have h1 := Finset.card_filter_le (Finset.range cs.length) fun x => x ∉ final
    rw [Finset.card_range] at h1
    rw [Finset.card_range]
    omega
  have hmaps : ∀ k ∈ Finset.range (cs.length + 1),
      (g k).1 ∈ (Finset.range cs.length).filter fun x => x ∉ final := fun k _ =>
    Finset.mem_filter.2 ⟨Finset.mem_range.2 (g k).2.1, (g k).2.2⟩
  obtain ⟨a, ha, b, hb, hab, heq⟩ :=
    Finset.exists_ne_map_eq_of_card_lt_of_maps_to hUcard hmaps
  rcases Nat.lt_or_ge a b with hlt | hge
  · exact key a b hlt heq
  · exact key b a (lt_of_le_of_ne hge (Ne.symm hab)) heq.symm

/-- C5 counterexample: the claimed equivalence fails in both directions on
inputs the function accepts.  `c5Ex1` (component `C` lists the dependency
`"B"` twice) has an acyclic, fully resolved dependency graph, yet
`sortByDepedencies` reports the circular/unresolved error because the initial
in-degree `len(Dependencies) = 2` can only be decremented once per emitted
name.  `c5Ex2` (two components named `"A"`) contains the cycle
`1 → 2 → 1`, yet the sort returns all `3` elements because the duplicated
name decrements the same cell twice. -/
theorem sortByDepedencies_cex :
    sortByDepedencies c5Ex1 =
      .error "circular dependencies or unresolved dependencies detected in components" ∧
    resolvesAll c5Ex1 ∧ acyclic c5Ex1 ∧
    (∃ l, sortByDepedencies c5Ex2 = .ok l ∧ l.length = c5Ex2.length) ∧
    Relation.TransGen (dependsOn c5Ex2) 1 1 := by
  refine ⟨rfl, by decide, ?_, ⟨_, rfl, rfl⟩, ?_⟩
  · apply acyclic_of_rank c5Ex1 fun i => i
    rintro i j ⟨hi, hj, hd⟩
    have hi' : i < 2 := by simpa [c5Ex1] using hi
    have hj' : j < 2 := by simpa [c5Ex1] using hj
    interval_cases i <;> interval_cases j <;> revert hd <;> decide
  · exact Relation.TransGen.tail
      (Relation.TransGen.single (by decide : dependsOn c5Ex2 1 2))
      (by decide : dependsOn c5Ex2 2 1)

/-- C5 (amended): for component lists with pairwise-distinct component names
and duplicate-free dependency lists — the data-model invariants
("`Name` unique within the Solution", "`Dependencies`: set of component
names") — `sortByDepedencies` returns a permutation of exactly
`|components|` elements iff the dependency graph is acyclic and every
dependency name resolves to a component in the list; otherwise it returns
the error `"circular dependencies or unresolved dependencies detected in
components"`.  Without those restrictions the equivalence fails, see the
counterexample. -/
theorem sortByDepedencies_correct (cs : List ComponentSpec)
    (hnames : (cs.map ComponentSpec.name).Nodup)
    (hdeps : ∀ c ∈ cs, c.dependencies.Nodup) :
    ((∃ l, sortByDepedencies cs = .ok l ∧ l.Perm cs) ↔ resolvesAll cs ∧ acyclic cs) ∧
    (¬(resolvesAll cs ∧ acyclic cs) →
      sortByDepedencies cs =
        .error "circular dependencies or unresolved dependencies detected in components") := by
  obtain ⟨ds', hfin⟩ := kahnLoop_spec cs hnames hdeps cs.length _ _ [] (kahnInv_init cs)
    (by simp)
  have hunfold : sortByDepedencies cs =
      if (kahnLoop cs cs.length (cs.map fun c => (c.dependencies.length : Int))
          ((List.range cs.length).filter fun i =>
            (cs.getD i default).dependencies.length == 0) []).length ≠ cs.length then
        .error "circular dependencies or unresolved dependencies detected in components"
      else
        .ok ((kahnLoop cs cs.length (cs.map fun c => (c.dependencies.length : Int))
          ((List.range cs.length).filter fun i =>
            (cs.getD i default).dependencies.length == 0) []).map fun i =>
              cs.getD i default) := rfl
  by_cases hlen : (kahnLoop cs cs.length (cs.map fun c => (c.dependencies.length : Int))
      ((List.range cs.length).filter fun i =>
        (cs.getD i default).dependencies.length == 0) []).length = cs.length
  · have hok : sortByDepedencies cs =
        .ok ((kahnLoop cs cs.length (cs.map fun c => (c.dependencies.length : Int))
          ((List.range cs.length).filter fun i =>
            (cs.getD i default).dependencies.length == 0) []).map fun i =>
              cs.getD i default) := by
      rw [hunfold, if_neg (by simpa using hlen)]
    obtain ⟨hperm, hres, hacyc⟩ := kahn_final_sound cs hnames ds' _ hfin hlen
    exact ⟨⟨fun _ => ⟨hres, hacyc⟩, fun _ => ⟨_, hok, hperm⟩⟩,
      fun hn => absurd ⟨hres, hacyc⟩ hn⟩
  · have herr : sortByDepedencies cs =
        .error "circular dependencies or unresolved dependencies detected in components" := by
      rw [hunfold, if_pos hlen]
    refine ⟨⟨?_, ?_⟩, fun _ => herr⟩
    · rintro ⟨l, hok, _⟩
      rw [herr] at hok
      exact Except.noConfusion hok
    · rintro ⟨hres, hacyc⟩
      exact absurd (kahn_final_complete cs ds' _ hfin hres hacyc) hlen

theorem sortByDepedencies_correct_witness :
    (c5W.map ComponentSpec.name).Nodup ∧ (∀ c ∈ c5W, c.dependencies.Nodup) ∧
    (((∃ l, sortByDepedencies c5W = .ok l ∧ l.Perm c5W) ↔
        resolvesAll c5W ∧ acyclic c5W) ∧
      (¬(resolvesAll c5W ∧ acyclic c5W) →
        sortByDepedencies c5W =
          .error "circular dependencies or unresolved dependencies detected in components")) :=
  ⟨by decide, by decide, sortByDepedencies_correct c5W (by decide) (by decide)⟩

/-- C1: evaluation of `Reconcile` at the failing input.  A first-time
deployment whose single declared target has no assigned component produces an
empty plan, so `someStepsRan` stays false and `Skipped = true`; but the
`SuccessCount = TargetCount` assignment of line 413 is immediately
overwritten by the recomputation from `targetResult` at line 421, so the
returned summary has `SuccessCount = 0` while `TargetCount = 1`, contradicting
the claim (and §4.5 step 10 of the specification, which the dead store at
line 413 was written to implement). -/
theorem reconcile_skipped_successCount_bug :
    (Reconcile c1Env c1Dep false "").summary.skipped = true ∧
    (Reconcile c1Env c1Dep false "").summary.targetCount = 1 ∧
    (Reconcile c1Env c1Dep false "").summary.successCount = 0 ∧
    (Reconcile c1Env c1Dep false "").error = none :=
  ⟨rfl, rfl, rfl, rfl⟩

/-! ## Unfolding equations for `stepLoop` -/

theorem stepLoop_nil (env : SolutionManagerEnv) (dep : DeploymentSpec) (targetName : String)
    (prev : Option SolutionManagerDeploymentState) (currentState : DeploymentState)
    (st : StepLoopState) :
    stepLoop env dep targetName prev currentState [] st = .done st := rfl

theorem stepLoop_cons_filter (env : SolutionManagerEnv) (dep : DeploymentSpec)
    (targetName : String) (prev : Option SolutionManagerDeploymentState)
    (currentState : DeploymentState) (step : DeploymentStep) (rest : List DeploymentStep)
    (st : StepLoopState) (hfilter : targetName ≠ "" ∧ targetName ≠ step.target) :
    stepLoop env dep targetName prev currentState (step :: rest) st =
      stepLoop env dep targetName prev currentState rest st := by
  simp only [stepLoop]
  rw [if_pos hfilter]

theorem stepLoop_cons_skip (env : SolutionManagerEnv) (dep : DeploymentSpec)
    (targetName : String) (prev : Option SolutionManagerDeploymentState)
    (currentState : DeploymentState) (step : DeploymentStep) (rest : List DeploymentStep)
    (st : StepLoopState) (hfilter : ¬(targetName ≠ "" ∧ targetName ≠ step.target))
    (hskip : skipOf env prev currentState step = true) :
    stepLoop env dep targetName prev currentState (step :: rest) st =
      stepLoop env dep targetName prev currentState rest
        { st with plannedCount := st.plannedCount + 1,
                  targetResult := aupsert st.targetResult step.target 1,
                  planSuccessCount := st.planSuccessCount + 1 } := by
  simp only [stepLoop]
  rw [if_neg hfilter, if_pos hskip]

theorem stepLoop_cons_apply_ok (env : SolutionManagerEnv) (dep : DeploymentSpec)
    (targetName : String) (prev : Option SolutionManagerDeploymentState)
    (currentState : DeploymentState) (step : DeploymentStep) (rest : List DeploymentStep)
    (st : StepLoopState) (r : List (String × ComponentResultSpec))
    (hfilter : ¬(targetName ≠ "" ∧ targetName ≠ step.target))
    (hskip : skipOf env prev currentState step = false)
    (happ : env.providerApply step = .ok r) :
    stepLoop env dep targetName prev currentState (step :: rest) st =
      stepLoop env dep targetName prev currentState rest
        { summary := SummarySpec.updateTargetResult
            { st.summary with
              allAssignedDeployed := st.plannedCount + 1 == st.planSuccessCount }
            step.target ⟨"OK", "", r⟩,
          targetResult := aupsert st.targetResult step.target 1,
          plannedCount := st.plannedCount + 1,
          planSuccessCount := st.planSuccessCount + 1,
          someStepsRan := true,
          effects := st.effects ++ [Effect.applyCall step] } := by
  have hskip' : ¬skipOf env prev currentState step = true := by
    rw [hskip]
    decide
  simp only [stepLoop]
  rw [if_neg hfilter, if_neg hskip', happ]

theorem stepLoop_cons_apply_error (env : SolutionManagerEnv) (dep : DeploymentSpec)
    (targetName : String) (prev : Option SolutionManagerDeploymentState)
    (currentState : DeploymentState) (step : DeploymentStep) (rest : List DeploymentStep)
    (st : StepLoopState) (e : String)
    (hfilter : ¬(targetName ≠ "" ∧ targetName ≠ step.target))
    (hskip : skipOf env prev currentState step = false)
    (happ : env.providerApply step = .error e) :
    stepLoop env dep targetName prev currentState (step :: rest) st =
      .failed
        { (SummarySpec.updateTargetResult { st.summary with allAssignedDeployed := false }
            step.target ⟨"Error", e, []⟩) with
          successCount := sumTargetResult (aupsert st.targetResult step.target 0),
          allAssignedDeployed := st.plannedCount + 1 == st.planSuccessCount }
        e
        ((st.effects ++ [Effect.applyCall step]) ++
          [saveSummaryEffect dep
            { (SummarySpec.updateTargetResult { st.summary with allAssignedDeployed := false }
                step.target ⟨"Error", e, []⟩) with
              successCount := sumTargetResult (aupsert st.targetResult step.target 0),
              allAssignedDeployed := st.plannedCount + 1 == st.planSuccessCount }]) := by
  have hskip' : ¬skipOf env prev currentState step = true := by
    rw [hskip]
    decide
  simp only [stepLoop]
  rw [if_neg hfilter, if_neg hskip', happ]

/-! ## Claim C4 -/

theorem stepLoop_error_spec (env : SolutionManagerEnv) (dep : DeploymentSpec)
    (targetName : String) (prev : Option SolutionManagerDeploymentState)
    (currentState : DeploymentState) (s : DeploymentStep) (e : String)
    (happly : env.providerApply s = .error e) :
    ∀ (steps : List DeploymentStep) (st : StepLoopState),
      Effect.applyCall s ∉ st.effects →
      (∀ st', stepLoop env dep targetName prev currentState steps st = .done st' →
        Effect.applyCall s ∉ st'.effects) ∧
      (∀ summary err effs,
        stepLoop env dep targetName prev currentState steps st = .failed summary err effs →
        Effect.applyCall s ∈ effs →
        err = e ∧
        alookup summary.targetResults s.target = some ⟨"Error", e, []⟩ ∧
        effs.getLast? = some (saveSummaryEffect dep summary)) := by
  intro steps
  induction steps with
  | nil =>
    intro st hnotin
    constructor
    · intro st' heq
      rw [stepLoop_nil] at heq
      cases heq
      exact hnotin
    · intro summary err effs heq
      rw [stepLoop_nil] at heq
      cases heq
  | cons step rest ih =>
    intro st hnotin
    by_cases hfilter : targetName ≠ "" ∧ targetName ≠ step.target
    · have hrw := stepLoop_cons_filter env dep targetName prev currentState step rest st hfilter
      obtain ⟨h1, h2⟩ := ih st hnotin
      exact ⟨fun st' heq => h1 st' (hrw.symm.trans heq),
        fun su er ef heq => h2 su er ef (hrw.symm.trans heq)⟩
    · cases hskip : skipOf env prev currentState step with
      | true =>
        have hrw := stepLoop_cons_skip env dep targetName prev currentState step rest st
          hfilter hskip
        obtain ⟨h1, h2⟩ := ih
          { st with plannedCount := st.plannedCount + 1,
                    targetResult := aupsert st.targetResult step.target 1,
                    planSuccessCount := st.planSuccessCount + 1 } hnotin
        exact ⟨fun st' heq => h1 st' (hrw.symm.trans heq),
          fun su er ef heq => h2 su er ef (hrw.symm.trans heq)⟩
      | false =>
        cases happ : env.providerApply step with
        | ok r =>
          have hsne : s ≠ step := by
            intro hss
            rw [hss, happ] at happly
            cases happly
          have hnotin' : Effect.applyCall s ∉ st.effects ++ [Effect.applyCall step] := by
            intro hmem
            rcases List.mem_append.1 hmem with hmem | hmem
            · exact hnotin hmem
            · have heq2 := List.mem_singleton.1 hmem
              injection heq2 with hss
              exact hsne hss
          have hrw := stepLoop_cons_apply_ok env dep targetName prev currentState step rest st
            r hfilter hskip happ
          obtain ⟨h1, h2⟩ := ih
            { summary := SummarySpec.updateTargetResult
                { st.summary with
                  allAssignedDeployed := st.plannedCount + 1 == st.planSuccessCount }
                step.target ⟨"OK", "", r⟩,
              targetResult := aupsert st.targetResult step.target 1,
              plannedCount := st.plannedCount + 1,
              planSuccessCount := st.planSuccessCount + 1,
              someStepsRan := true,
              effects := st.effects ++ [Effect.applyCall step] } hnotin'
          exact ⟨fun st' heq => h1 st' (hrw.symm.trans heq),
            fun su er ef heq => h2 su er ef (hrw.symm.trans heq)⟩
        | error e2 =>
          have hrw := stepLoop_cons_apply_error env dep targetName prev currentState step rest
            st e2 hfilter hskip happ
          constructor
          · intro st' heq
            rw [hrw] at heq
            cases heq
          · intro summary err effs heq hmem
            rw [hrw] at heq
            injection heq with hsum herr heffs
            subst hsum
            subst herr
            subst heffs
            by_cases hss : s = step
            · subst hss
              rw [happ] at happly
              injection happly with hee
              subst hee
              refine ⟨rfl, ?_, ?_⟩
              · exact alookup_aupsert_self _ _ _
              · exact List.getLast?_concat _
            · exfalso
              rcases List.mem_append.1 hmem with hmem2 | hmem2
              · rcases List.mem_append.1 hmem2 with hmem3 | hmem3
                · exact hnotin hmem3
                · have heq2 := List.mem_singleton.1 hmem3
                  injection heq2 with hss2
                  exact hss hss2
              · have heq2 := List.mem_singleton.1 hmem2
                cases heq2

theorem reconcileCore_apply_failure (env : SolutionManagerEnv)
    (prev : Option SolutionManagerDeploymentState) (dep : DeploymentSpec) (remove : Bool)
    (targetName : String) (s : DeploymentStep) (e : String)
    (happly : env.providerApply s = .error e) :
    Effect.applyCall s ∈ (reconcileCore env prev dep remove targetName).effects →
      (reconcileCore env prev dep remove targetName).error = some e ∧
      alookup (reconcileCore env prev dep remove targetName).summary.targetResults s.target =
        some ⟨"Error", e, []⟩ ∧
      (reconcileCore env prev dep remove targetName).effects.getLast? =
        some (saveSummaryEffect dep
          (reconcileCore env prev dep remove targetName).summary) := by
  simp only [reconcileCore]
  cases hget : managerGet env dep targetName with
  | error e2 =>
    intro hmem
    exfalso
    simp only [List.mem_singleton] at hmem
    cases hmem
  | ok pr =>
    obtain ⟨currentState, comps⟩ := pr
    dsimp only
    cases hplan : PlanForDeployment dep (MergeDeploymentStates currentState
        (if remove then (reconcileDesiredState prev (NewDeploymentState dep)).markRemoveAll
         else reconcileDesiredState prev (NewDeploymentState dep))) with
    | error e2 =>
      intro hmem
      exfalso
      simp only [List.mem_singleton] at hmem
      cases hmem
    | ok plan =>
      dsimp only
      have hspec := stepLoop_error_spec env dep targetName prev currentState s e happly
        plan.steps
        ⟨{ targetCount := dep.targets.length, successCount := 0, allAssignedDeployed := false,
           skipped := false, isRemoval := false, summaryMessage := "", targetResults := [] },
         [], 0, 0, false, []⟩
        (List.not_mem_nil _)
      cases hloop : stepLoop env dep targetName prev currentState plan.steps
          ⟨{ targetCount := dep.targets.length, successCount := 0,
             allAssignedDeployed := false, skipped := false, isRemoval := false,
             summaryMessage := "", targetResults := [] }, [], 0, 0, false, []⟩ with
      | failed summary e2 effs =>
        intro hmem
        dsimp only at hmem ⊢
        obtain ⟨herr, hres, hlast⟩ := hspec.2 summary e2 effs hloop hmem
        subst herr
        exact ⟨rfl, hres, hlast⟩
      | done st =>
        intro hmem
        dsimp only at hmem ⊢
        exfalso
        have hnot := hspec.1 st hloop
        rcases List.mem_append.1 hmem with hmem2 | hmem2
        · rcases List.mem_append.1 hmem2 with hmem3 | hmem3
          · exact hnot hmem3
          · have heq2 := List.mem_singleton.1 hmem3
            cases heq2
        · have heq2 := List.mem_singleton.1 hmem2
          cases heq2

/-- C4 (confirmed): whenever a step's `Apply` fails on its final (only,
`retryCount = 1`) attempt, the returned summary records
`{Status: "Error", Message: <error>}` for that step's target, the summary is
persisted via `saveSummary` as the last effect before `Reconcile` returns,
and the error returned by `Reconcile` is exactly that step's error. -/
theorem reconcile_apply_failure (env : SolutionManagerEnv) (dep : DeploymentSpec)
    (remove : Bool) (targetName : String) (s : DeploymentStep) (e : String)
    (happly : env.providerApply s = .error e)
    (hmem : Effect.applyCall s ∈ (Reconcile env dep remove targetName).effects) :
    (Reconcile env dep remove targetName).error = some e ∧
    alookup (Reconcile env dep remove targetName).summary.targetResults s.target =
      some ⟨"Error", e, []⟩ ∧
    (Reconcile env dep remove targetName).effects.getLast? =
      some (saveSummaryEffect dep (Reconcile env dep remove targetName).summary) :=
  reconcileCore_apply_failure env (getPreviousState env) dep remove targetName s e happly hmem

theorem reconcile_apply_failure_witness :
    c4Env.providerApply c4Step = .error "boom" ∧
    Effect.applyCall c4Step ∈ (Reconcile c4Env c4Dep false "").effects ∧
    ((Reconcile c4Env c4Dep false "").error = some "boom" ∧
      alookup (Reconcile c4Env c4Dep false "").summary.targetResults c4Step.target =
        some ⟨"Error", "boom", []⟩ ∧
      (Reconcile c4Env c4Dep false "").effects.getLast? =
        some (saveSummaryEffect c4Dep (Reconcile c4Env c4Dep false "").summary)) :=
  ⟨rfl, by decide,
    reconcile_apply_failure c4Env c4Dep false "" c4Step "boom" rfl (by decide)⟩

/-! ## Claim C9 -/

theorem stepLoop_none_all_ok (env : SolutionManagerEnv) (dep : DeploymentSpec)
    (targetName : String) (currentState : DeploymentState)
    (hok : ∀ s', ∃ r, env.providerApply s' = .ok r) :
    ∀ (steps : List DeploymentStep) (st : StepLoopState),
      ∃ st', stepLoop env dep targetName none currentState steps st = .done st' ∧
        (∀ x ∈ st.effects, x ∈ st'.effects) ∧
        (∀ s ∈ steps, ¬(targetName ≠ "" ∧ targetName ≠ s.target) →
          Effect.applyCall s ∈ st'.effects) := by
  intro steps
  induction steps with
  | nil =>
    intro st
    exact ⟨st, rfl, fun x hx => hx, fun s hs => absurd hs (List.not_mem_nil s)⟩
  | cons step rest ih =>
    intro st
    by_cases hfilter : targetName ≠ "" ∧ targetName ≠ step.target
    · obtain ⟨st', heq, hsub, hall⟩ := ih st
      refine ⟨st',
        (stepLoop_cons_filter env dep targetName none currentState step rest st hfilter).trans
          heq, hsub, ?_⟩
      intro s hs hpass
      rcases List.mem_cons.1 hs with rfl | hs'
      · exact absurd hfilter hpass
      · exact hall s hs' hpass
    · obtain ⟨r, hr⟩ := hok step
      obtain ⟨st', heq, hsub, hall⟩ := ih
        { summary := SummarySpec.updateTargetResult
            { st.summary with
              allAssignedDeployed := st.plannedCount + 1 == st.planSuccessCount }
            step.target ⟨"OK", "", r⟩,
          targetResult := aupsert st.targetResult step.target 1,
          plannedCount := st.plannedCount + 1,
          planSuccessCount := st.planSuccessCount + 1,
          someStepsRan := true,
          effects := st.effects ++ [Effect.applyCall step] }
      refine ⟨st',
        (stepLoop_cons_apply_ok env dep targetName none currentState step rest st r hfilter
          rfl hr).trans heq, ?_, ?_⟩
      · intro x hx
        exact hsub x (List.mem_append_left _ hx)
      · intro s hs hpass
        rcases List.mem_cons.1 hs with rfl | hs'
        · exact hsub _ (List.mem_append_right _ (List.mem_singleton_self _))
        · exact hall s hs' hpass

/-- C9 (confirmed): any failure of `getPreviousState` — a state-store error
of any kind, or a deserialization failure of the stored body — yields a nil
previous state, and `Reconcile` then behaves exactly as a first-time
deployment: its result coincides with `reconcileCore` for `prev = none`,
where the previous desired state is not merged into the desired state
(`reconcileDesiredState none` is the identity), and skip detection is
bypassed (`skipOf` is constantly false), so that — when the plan is produced
and every `Apply` succeeds — every planned step that passes the target filter
has `Apply` called on it. -/
theorem reconcile_prev_failure_first_time (env : SolutionManagerEnv) (dep : DeploymentSpec)
    (remove : Bool) (targetName : String)
    (hfail : ∀ st, env.prevGetRaw ≠ .ok (.ok st)) :
    getPreviousState env = none ∧
    Reconcile env dep remove targetName = reconcileCore env none dep remove targetName ∧
    (∀ cds, reconcileDesiredState none cds = cds) ∧
    (∀ currentState step, skipOf env none currentState step = false) ∧
    (∀ plan currentState comps,
      managerGet env dep targetName = .ok (currentState, comps) →
      PlanForDeployment dep (MergeDeploymentStates currentState
        (if remove then (reconcileDesiredState none (NewDeploymentState dep)).markRemoveAll
         else reconcileDesiredState none (NewDeploymentState dep))) = .ok plan →
      (∀ s', ∃ r, env.providerApply s' = .ok r) →
      ∀ s ∈ plan.steps, ¬(targetName ≠ "" ∧ targetName ≠ s.target) →
        Effect.applyCall s ∈ (Reconcile env dep remove targetName).effects) := by
  have hnone : getPreviousState env = none := by
    unfold getPreviousState
    cases hraw : env.prevGetRaw with
    | error k => rfl
    | ok inner =>
      cases inner with
      | error u => rfl
      | ok st => exact absurd hraw (hfail st)
  have hcore : Reconcile env dep remove targetName =
      reconcileCore env none dep remove targetName := by
    unfold Reconcile
    rw [hnone]
  refine ⟨hnone, hcore, fun _ => rfl, fun _ _ => rfl, ?_⟩
  intro plan currentState comps hget hplan hok s hs hpass
  rw [hcore]
  obtain ⟨st', heq, _, hall⟩ := stepLoop_none_all_ok env dep targetName currentState hok
    plan.steps
    ⟨{ targetCount := dep.targets.length, successCount := 0, allAssignedDeployed := false,
       skipped := false, isRemoval := false, summaryMessage := "", targetResults := [] },
     [], 0, 0, false, []⟩
  have hmem := hall s hs hpass
  simp only [reconcileCore]
  rw [hget]
  dsimp only
  rw [hplan]
  dsimp only
  rw [heq]
  dsimp only
  exact List.mem_append_left _ (List.mem_append_left _ hmem)

theorem reconcile_prev_failure_first_time_witness :
    (∀ st, c9Env.prevGetRaw ≠ .ok (.ok st)) ∧
    getPreviousState c9Env = none ∧
    Reconcile c9Env c9Dep false "" = reconcileCore c9Env none c9Dep false "" := by
  have hf : ∀ st, c9Env.prevGetRaw ≠ .ok (.ok st) := by
    intro st h
    injection h with h2
    cases h2
  exact ⟨hf, (reconcile_prev_failure_first_time c9Env c9Dep false "" hf).1,
    (reconcile_prev_failure_first_time c9Env c9Dep false "" hf).2.1⟩

end Symphony
